import Mathlib

/-!
Verification of the warehouse-flow-simulator core against its specification.

The Python source is shallowly embedded: grids are index functions, the
networkx shortest-path query is embedded as a verified breadth-first search
(the library's A* with an admissible Manhattan heuristic returns a
minimum-hop path over the unweighted adjacency graph, which is exactly what
the BFS below returns; both include the two endpoints in the returned list),
Python floats that only ever hold exact small values (tick counters and
wall-clock readings) become rationals, and fallible calls return Option or
Except.  Wall-clock readings (Python time.time()) are modelled as an input
stream sampled once per simulation step; the wall-clock timestamps attached
to activity-log entries and the unused Worker.start_time field are elided
since no logged payload or claim depends on them (the log message payloads
themselves are kept).
-/

set_option allowUnsafeReducibility true in
attribute [semireducible] Rat.add Rat.sub Rat.mul Rat.div Rat.inv Rat.neg Rat.normalize
  Rat.maybeNormalize Rat.blt

set_option maxHeartbeats 10000000

namespace Warehouse

/-- Grid position, Python (x, y) int tuples. -/
abbrev Pos := Int × Int

/-- Manhattan distance, as computed in get_nearest_walkable and the A* heuristic. -/
def manhattan (a b : Pos) : Nat := (a.1 - b.1).natAbs + (a.2 - b.2).natAbs

/-- Shelf predicate from WarehouseMap._initialize_layout: vertical shelf columns
at x = 2, 5, 8, ... strictly below width-2, on rows 1 .. height-2 except every
fourth row (y % 4 == 0 stays an aisle). -/
def isShelf (w h : Nat) (p : Pos) : Bool :=
  decide (2 ≤ p.1) && decide (p.1 < (w : Int) - 2) && decide ((p.1 - 2) % 3 = 0)
    && decide (1 ≤ p.2) && decide (p.2 < (h : Int) - 1) && decide (p.2 % 4 ≠ 0)

/-- In-bounds test for the grid. -/
def inBounds (w h : Nat) (p : Pos) : Bool :=
  decide (0 ≤ p.1) && decide (p.1 < (w : Int)) && decide (0 ≤ p.2) && decide (p.2 < (h : Int))

/-- A cell a worker may occupy: in bounds and not a shelf (grid value 0 or 2). -/
def walkableCell (w h : Nat) (p : Pos) : Bool :=
  inBounds w h p && !isShelf w h p

/-- The picking station cell (1, height-2) set in _initialize_layout. -/
def picking_station (_w h : Nat) : Pos := (1, (h : Int) - 2)

/-- walkable_paths from _update_walkable_paths: all walkable cells in scan order
(y outer loop, x inner loop). -/
def walkable_paths (w h : Nat) : List Pos :=
  (List.range h).flatMap fun (y : Nat) =>
    (List.range w).filterMap fun (x : Nat) =>
      if walkableCell w h ((x : Int), (y : Int)) then some (((x : Int), (y : Int)) : Pos) else none

/-- Shelf cells in scan order; _initialize_layout assigns product ids 1, 2, ...
to these cells in this order. -/
def shelf_cells (w h : Nat) : List Pos :=
  (List.range h).flatMap fun (y : Nat) =>
    (List.range w).filterMap fun (x : Nat) =>
      if isShelf w h ((x : Int), (y : Int)) then some (((x : Int), (y : Int)) : Pos) else none

/-- storage_locations lookup: product id k (1-based) maps to the k-th shelf cell
in scan order; ids outside 1 .. number-of-shelves are absent from the dict. -/
def storage_location (w h : Nat) (productId : Nat) : Option Pos :=
  if productId = 0 then none else (shelf_cells w h).get? (productId - 1)

/-- Neighbor list of a cell as built by _build_navigation_graph: offsets tried in
the order (0,1), (1,0), (0,-1), (-1,0), keeping in-bounds walkable cells. -/
def neighborsOf (w h : Nat) (p : Pos) : List Pos :=
  [(p.1, p.2 + 1), (p.1 + 1, p.2), (p.1, p.2 - 1), (p.1 - 1, p.2)].filter (walkableCell w h)

/-- The node set of the networkx graph built in find_shortest_path: the graph
only receives nodes through add_edge, so a cell is a node exactly when it has at
least one walkable neighbor (the adjacency relation is symmetric, so keys with a
nonempty neighbor list and neighbors of such keys coincide). -/
def graph_nodes (w h : Nat) : List Pos :=
  (walkable_paths w h).filter fun p => !(neighborsOf w h p).isEmpty

/-- Scan loop of get_nearest_walkable: Python keeps the first cell realising the
strict minimum of the Manhattan distance; seeding with the first list element is
equivalent to starting from min_dist = infinity. -/
def nearestGo (pos : Pos) : Pos → Nat → List Pos → Pos
  | best, _, [] => best
  | best, bd, r :: rest =>
    if manhattan r pos < bd then nearestGo pos r (manhattan r pos) rest
    else nearestGo pos best bd rest

/-- get_nearest_walkable: the position itself when walkable, otherwise the first
walkable cell at minimal Manhattan distance in scan order; Python returns the
None sentinel when there are no walkable cells at all. -/
def get_nearest_walkable (w h : Nat) (pos : Pos) : Option Pos :=
  if pos ∈ walkable_paths w h then some pos
  else
    match walkable_paths w h with
    | [] => none
    | r :: rest => some (nearestGo pos r (manhattan r pos) rest)

/-- Exceptions that escape find_shortest_path: networkx raises NodeNotFound when
an endpoint handed to has_path is absent from the graph (including the None
sentinel produced by get_nearest_walkable on a walkable-free topology). -/
inductive PyErr where
  | nodeNotFound
deriving DecidableEq

/-- One frontier expansion of breadth-first search over an adjacency function:
append the not-yet-visited neighbors of the visited set. -/
def bfsStep (adj : Pos → List Pos) (r : List Pos) : List Pos :=
  r ++ ((r.flatMap adj).filter fun q => !r.contains q).dedup

/-- Cells reachable from s in at most n hops. -/
def reach (adj : Pos → List Pos) (s : Pos) : Nat → List Pos
  | 0 => [s]
  | n + 1 => bfsStep adj (reach adj s n)

/-- Reconstruct a minimum-hop path ending at t by walking the BFS layers back
towards the source; returns the whole node list from s to t inclusive. -/
def buildPath (adj : Pos → List Pos) (s : Pos) : Nat → Pos → List Pos
  | 0, t => [t]
  | k + 1, t =>
    if t ∈ reach adj s k then buildPath adj s k t
    else
      match (reach adj s k).find? fun u => decide (t ∈ adj u) with
      | some u => buildPath adj s k u ++ [t]
      | none => []

/-- Enough BFS iterations to exhaust any component: the number of walkable cells. -/
def fuelOf (w h : Nat) : Nat := (walkable_paths w h).length

/-- find_shortest_path: snap both endpoints with get_nearest_walkable, raise
NodeNotFound when a snapped endpoint is missing from the edge-built graph (as
networkx has_path does), return [] when the endpoints are disconnected, and
otherwise return a minimum-hop path including both endpoints (what nx.astar_path
with the admissible Manhattan heuristic returns on the unweighted graph). -/
def find_shortest_path (w h : Nat) (a b : Pos) : Except PyErr (List Pos) :=
  match get_nearest_walkable w h a, get_nearest_walkable w h b with
  | some s, some t =>
    if s ∈ graph_nodes w h ∧ t ∈ graph_nodes w h then
      if t ∈ reach (neighborsOf w h) s (fuelOf w h) then
        .ok (buildPath (neighborsOf w h) s (fuelOf w h) t)
      else .ok []
    else .error .nodeNotFound
  | _, _ => .error .nodeNotFound

/-- Activity-log message payloads written by WarehouseWorker; the wall-clock
timestamps Python attaches to them are elided (no claim reads them). -/
inductive LogMsg where
  | orderReceived (oid numItems : Nat)
  | planItem (item : Nat)
  | itemNotFound (item : Nat)
  | returningToStation
  | picked (item : Nat)
  | orderCompleted (oid : Nat)
deriving DecidableEq

/-- Order record (models.order.Order).  created_time is the wall-clock
time.time() reading taken in __init__; completed_time is whatever
mark_as_completed received. -/
structure Order where
  order_id : Nat
  items : List Nat
  priority : Nat
  created_time : Rat
  completed_time : Option Rat := none
  assigned_worker : Option Nat := none
deriving DecidableEq

/-- Order.is_completed: empty item list and a set completion time. -/
def Order.is_completed (o : Order) : Bool :=
  o.items.isEmpty && o.completed_time.isSome

/-- Order.mark_as_completed. -/
def Order.mark_as_completed (o : Order) (t : Rat) : Order :=
  { o with completed_time := some t }

/-- Order.get_processing_time; now models the time.time() reading taken at
entry.  Python tests if self.completed_time, a truthiness check that treats
both None and 0.0 as false, and clamps negatives with max(0, ...). -/
def Order.get_processing_time (o : Order) (now : Rat) : Rat :=
  match o.completed_time with
  | some c => if c ≠ 0 then max 0 (c - o.created_time) else max 0 (now - o.created_time)
  | none => max 0 (now - o.created_time)

/-- Worker record (models.worker.WarehouseWorker).  current_order holds the
index of the order inside the simulator's master orders list (Python holds an
object reference into that list); the unused start_time field is elided. -/
structure Worker where
  worker_id : Nat
  position : Pos
  current_order : Option Nat := none
  path : List Pos := []
  path_index : Nat := 0
  picked_items : List Nat := []
  is_busy : Bool := false
  total_distance : Rat := 0
  total_items_picked : Nat := 0
  movement_history : List (Rat × Pos) := []
  activity_log : List LogMsg := []
deriving DecidableEq

/-- Recursion of _plan_path_to_next_item over the backlog: produce the planned
path, the backlog left after dropping leading unknown items, and the log
entries appended, or none when the path query raises.  The empty-backlog case
is the way home; an unknown head item is logged, popped and the function
recurses, exactly the Python else branch. -/
def planFromItems (w h : Nat) (pos : Pos) : List Nat → Option (List Pos × List Nat × List LogMsg)
  | [] => do
    let p ← (find_shortest_path w h pos (picking_station w h)).toOption
    some (p, [], [LogMsg.returningToStation])
  | i :: rest =>
    match storage_location w h i with
    | some loc => do
      let p ← (find_shortest_path w h pos loc).toOption
      some (p, i :: rest, [LogMsg.planItem i])
    | none => do
      let (p, items, logs) ← planFromItems w h pos rest
      some (p, items, LogMsg.itemNotFound i :: logs)

/-- _plan_path_to_next_item on a worker and the shared orders list: a missing
current order (or an empty backlog) plans the way back to the picking station;
otherwise the path to the first locatable item is planned, unknown items being
dropped from the order on the way.  path_index is reset to 0. -/
def plan_path_to_next_item (w h : Nat) (wk : Worker) (orders : List Order) :
    Option (Worker × List Order) :=
  match wk.current_order with
  | none => do
    let p ← (find_shortest_path w h wk.position (picking_station w h)).toOption
    some ({ wk with path := p, path_index := 0,
                    activity_log := wk.activity_log ++ [LogMsg.returningToStation] }, orders)
  | some oi => do
    let o ← orders.get? oi
    let (p, items, logs) ← planFromItems w h wk.position o.items
    some ({ wk with path := p, path_index := 0, activity_log := wk.activity_log ++ logs },
          orders.set oi { o with items := items })

/-- WarehouseWorker.assign_order: unconditionally installs the order (no
idleness check), marks the worker busy, stamps the order with the worker id,
logs receipt and plans the path to the first item. -/
def assign_order (w h : Nat) (wk : Worker) (oi : Nat) (orders : List Order) :
    Option (Worker × List Order) := do
  let o ← orders.get? oi
  let o := { o with assigned_worker := some wk.worker_id }
  let orders := orders.set oi o
  let wk := { wk with current_order := some oi, is_busy := true,
                      activity_log := wk.activity_log ++ [LogMsg.orderReceived o.order_id o.items.length] }
  plan_path_to_next_item w h wk orders

/-- WarehouseWorker.move: one movement step at simulation time t.  Returns the
updated worker, the updated shared orders list and the Python boolean result. -/
def Worker.move (w h : Nat) (t : Rat) (wk : Worker) (orders : List Order) :
    Option (Worker × List Order × Bool) :=
  if ¬wk.is_busy ∨ wk.path = [] ∨ wk.path.length ≤ wk.path_index then
    some (wk, orders, false)
  else do
    let next ← wk.path.get? wk.path_index
    let dist : Nat := manhattan next wk.position
    let wk := { wk with total_distance := wk.total_distance + dist,
                        position := next, path_index := wk.path_index + 1,
                        movement_history := wk.movement_history ++ [(t, next)] }
    if wk.path_index < wk.path.length then some (wk, orders, true)
    else
      match wk.current_order with
      | some oi => do
        let o ← orders.get? oi
        match o.items with
        | item :: restItems =>
          let orders := orders.set oi { o with items := restItems }
          let wk := { wk with picked_items := wk.picked_items ++ [item],
                              total_items_picked := wk.total_items_picked + 1,
                              activity_log := wk.activity_log ++ [LogMsg.picked item] }
          let (wk, orders) ← plan_path_to_next_item w h wk orders
          some (wk, orders, true)
        | [] =>
          if wk.position = picking_station w h then
            let orders := orders.set oi (Order.mark_as_completed o t)
            some ({ wk with current_order := none, is_busy := false, picked_items := [],
                            activity_log := wk.activity_log ++ [LogMsg.orderCompleted o.order_id] },
                  orders, true)
          else some (wk, orders, true)
      | none => some (wk, orders, true)

/-- Insertion-ordered dictionary write, Python d[k] = v on a dict kept as an
association list in insertion order. -/
def upsert (l : List (Pos × Nat)) (k : Pos) (v : Nat) : List (Pos × Nat) :=
  if l.any fun e => e.1 = k then l.map fun e => if e.1 = k then (k, v) else e
  else l ++ [(k, v)]

/-- Python d.get(k, 0). -/
def alookup (l : List (Pos × Nat)) (k : Pos) : Nat :=
  ((l.find? fun e => e.1 = k).map Prod.snd).getD 0

/-- Same for the worker-utilization dict (worker id keys, float values). -/
def upsertU (l : List (Nat × Rat)) (k : Nat) (v : Rat) : List (Nat × Rat) :=
  if l.any fun e => e.1 = k then l.map fun e => if e.1 = k then (k, v) else e
  else l ++ [(k, v)]

/-- The simulator's stats dictionary. -/
structure Stats where
  total_orders : Nat := 0
  completed_orders : Nat := 0
  total_items_picked : Nat := 0
  total_distance : Rat := 0
  avg_order_completion_time : Rat := 0
  worker_utilization : List (Nat × Rat) := []
  hotspots : List (Pos × Nat) := []
deriving DecidableEq

/-- Simulator state (simulation.simulator.WarehouseSimulator).  pending_orders
and completed_orders hold indices into the master orders list, standing for the
Python object references. -/
structure SimState where
  width : Nat
  height : Nat
  workers : List Worker
  orders : List Order := []
  pending_orders : List Nat := []
  completed_orders : List Nat := []
  current_time : Rat := 0
  stats : Stats := {}
deriving DecidableEq

/-- WarehouseSimulator.__init__: workers 1..n all start at the picking station. -/
def initSim (w h numWorkers : Nat) : SimState :=
  { width := w, height := h,
    workers := (List.range numWorkers).map fun i =>
      { worker_id := i + 1, position := picking_station w h } }

/-- The pseudo-random draws a run consumes, as oracle streams: coin k is the
random.random() call of step k; nitems, sample and prio are the draws of the
k-th order creation (sample k is the ordering random.sample produces, of which
the first min(nitems k, product count) elements are used). -/
structure Oracle where
  coin : Nat → Rat
  nitems : Nat → Nat
  sample : Nat → List Nat
  prio : Nat → Nat

/-- WarehouseSimulator.generate_random_order at wall-clock reading wallNow:
order_id is len(orders)+1, the new order goes to both the master list and
pending_orders, and stats.total_orders is bumped.  Returns the state unchanged
when there are no products. -/
def generate_random_order (oracle : Oracle) (wallNow : Rat) (s : SimState) : SimState :=
  let k := s.orders.length
  let numProducts := (shelf_cells s.width s.height).length
  if numProducts = 0 then s
  else
    let items := (oracle.sample k).take (min (oracle.nitems k) numProducts)
    let o : Order := { order_id := k + 1, items := items, priority := oracle.prio k,
                       created_time := wallNow }
    { s with orders := s.orders ++ [o],
             pending_orders := s.pending_orders ++ [k],
             stats := { s.stats with total_orders := s.stats.total_orders + 1 } }

/-- Stable insertion of an index into a list already sorted by key. -/
def insertSorted (key : Nat → Nat) : List Nat → Nat → List Nat
  | [], x => [x]
  | y :: ys, x => if key y ≤ key x then y :: insertSorted key ys x else x :: y :: ys

/-- Stable ascending sort by key; list.sort(key=...) in Python is stable, and a
stable sort's output is unique, so insertion sort embeds it exactly. -/
def sortStable (key : Nat → Nat) (l : List Nat) : List Nat :=
  l.foldl (insertSorted key) []

/-- Priority of the order at index i of the master list. -/
def priorityOf (orders : List Order) (i : Nat) : Nat :=
  ((orders.get? i).map Order.priority).getD 0

/-- Iteration of assign_orders over the priority-sorted pending snapshot: each
order goes to the first non-busy worker in list order (ids ascending as
constructed) and leaves pending; with no idle worker it stays. -/
def assignLoop (w h : Nat) :
    List Nat → List Worker → List Order → List Nat →
    Option (List Worker × List Order × List Nat)
  | [], ws, os, pend => some (ws, os, pend)
  | oi :: rest, ws, os, pend =>
    match ws.findIdx? fun wk => !wk.is_busy with
    | none => assignLoop w h rest ws os (pend ++ [oi])
    | some wi => do
      let wk ← ws.get? wi
      let (wk, os) ← assign_order w h wk oi os
      assignLoop w h rest (ws.set wi wk) os pend

/-- WarehouseSimulator.assign_orders: pending is stably sorted ascending by
priority in place, then each pending order is assigned first-fit. -/
def assign_orders (w h : Nat) (ws : List Worker) (orders : List Order)
    (pending : List Nat) : Option (List Worker × List Order × List Nat) :=
  assignLoop w h (sortStable (priorityOf orders) pending) ws orders []

/-- Completion sweep of WarehouseSimulator.update for one freed worker: the
first order (in master-list order) assigned to this worker, completed and not
yet in completed_orders is appended; Python only breaks out of the scan after
appending. -/
def sweepFind (orders : List Order) (wid : Nat) (completed : List Nat) : Option Nat :=
  (List.range orders.length).find? fun i =>
    match orders.get? i with
    | some o => o.assigned_worker == some wid && o.is_completed && !(completed.contains i)
    | none => false

/-- Movement phase of update for the worker at index i: busy workers move once,
and a worker that just freed itself triggers the completion sweep. -/
def moveOne (w h : Nat) (t : Rat) (acc : List Worker × List Order × List Nat) (i : Nat) :
    Option (List Worker × List Order × List Nat) := do
  let (ws, os, comp) := acc
  let wk ← ws.get? i
  if wk.is_busy then do
    let (wk, os, _) ← Worker.move w h t wk os
    let comp :=
      if wk.current_order = none ∧ wk.is_busy = false then
        match sweepFind os wk.worker_id comp with
        | some oi => comp ++ [oi]
        | none => comp
      else comp
    some (ws.set i wk, os, comp)
  else some (ws, os, comp)

/-- The whole movement-plus-sweep phase, workers advanced sequentially in list
(id) order. -/
def movePhase (w h : Nat) (t : Rat) (ws : List Worker) (os : List Order)
    (comp : List Nat) : Option (List Worker × List Order × List Nat) :=
  (List.range ws.length).foldlM (moveOne w h t) (ws, os, comp)

/-- WarehouseSimulator._update_stats at wall-clock reading wallNow: counters
are recomputed from the current snapshot, but worker_utilization and hotspots
are written into the persisting dicts; in particular the whole movement history
of every worker is added onto hotspots again on every call. -/
def update_stats (wallNow : Rat) (s : SimState) : SimState :=
  let st := s.stats
  let st := { st with completed_orders := s.completed_orders.length }
  let st := { st with total_items_picked := (s.workers.map Worker.total_items_picked).sum }
  let st := { st with total_distance := (s.workers.map Worker.total_distance).sum }
  let st :=
    if s.completed_orders.isEmpty then { st with avg_order_completion_time := 0 }
    else
      let times := (s.completed_orders.filterMap s.orders.get?).filterMap fun o =>
        if o.completed_time.isSome then some (o.get_processing_time wallNow) else none
      if times.isEmpty then { st with avg_order_completion_time := 0 }
      else { st with avg_order_completion_time := times.sum / (times.length : Rat) }
  let util := s.workers.foldl (fun u wk => upsertU u wk.worker_id (if wk.is_busy then 1 else 0))
    st.worker_utilization
  let st := { st with worker_utilization := util }
  let hots := s.workers.foldl (fun hm wk =>
    wk.movement_history.foldl (fun hm e => upsert hm e.2 (alookup hm e.2 + 1)) hm) st.hotspots
  let st := { st with hotspots := hots }
  { s with stats := st }

/-- WarehouseSimulator.update: advance the clock one tick, move every busy
worker (sweeping completions), assign pending orders, recompute stats. -/
def update (wallNow : Rat) (s : SimState) : Option SimState := do
  let t := s.current_time + 1
  let (ws, os, comp) ← movePhase s.width s.height t s.workers s.orders s.completed_orders
  let (ws, os, pend) ← assign_orders s.width s.height ws os s.pending_orders
  some (update_stats wallNow
    { s with workers := ws, orders := os, completed_orders := comp,
             pending_orders := pend, current_time := t })

/-- One loop body of run_simulation: maybe generate an order, then update.
The wall stream is sampled once per step and feeds both the created_time of a
generated order and the stats recomputation. -/
def runStep (oracle : Oracle) (wall : Nat → Rat) (freq : Rat) (k : Nat)
    (s : SimState) : Option SimState :=
  let s := if oracle.coin k < freq then generate_random_order oracle (wall k) s else s
  update (wall k) s

/-- WarehouseSimulator.run_simulation for a given step count. -/
def runSim (oracle : Oracle) (wall : Nat → Rat) (freq : Rat) (steps : Nat)
    (s : SimState) : Option SimState :=
  (List.range steps).foldlM (fun s k => runStep oracle wall freq k s) s

/-- Iterated update with generation disabled, the shape run_simulation takes
with order_frequency 0 (random.random() is never below 0). -/
def iterUpdate (wall : Nat → Rat) : Nat → SimState → Option SimState
  | 0, s => some s
  | n + 1, s => do iterUpdate wall n (← update (wall n) s)

/-- The spec's single-order scenario on the 5x5 topology: one worker at the
picking station (1,3) and one pre-created order holding product 1, whose pick
target (the walkable cell nearest to its shelf (2,1)) is the cell (2,0), 4
Manhattan steps from the station.  created_time is the wall-clock reading the
Order constructor took, left as a parameter. -/
def scenarioInit (c : Rat) : SimState :=
  let s := initSim 5 5 1
  { s with orders := [{ order_id := 1, items := [1], priority := 1, created_time := c }],
           pending_orders := [0] }

/-- An oracle for runs whose coin never fires (generation disabled works with
any stream once order_frequency is 0, since random.random() is never below 0). -/
def nullOracle : Oracle :=
  { coin := fun _ => 1, nitems := fun _ => 0, sample := fun _ => [], prio := fun _ => 1 }

/-- The scenario run: n steps with order generation disabled, constant
wall-clock stream cw. -/
def scenarioRun (c cw : Rat) (n : Nat) : Option SimState :=
  runSim nullOracle (fun _ => cw) 0 n (scenarioInit c)

/-- An oracle that generates exactly one order, at step 0: one item, product 1,
priority 1.  The coin draw of step 0 is below the frequency 1/2, later draws are
not. -/
def genOracle : Oracle :=
  { coin := fun k => if k = 0 then 0 else 1,
    nitems := fun _ => 1, sample := fun _ => [1], prio := fun _ => 1 }

/-- A full run of run_simulation on the 5x5 single-worker warehouse with the
one-order oracle and a constant wall-clock stream cw: the generated order's
created_time is the wall-clock reading of step 0. -/
def genRun (cw : Rat) (n : Nat) : Option SimState :=
  runSim genOracle (fun _ => cw) (1 / 2) n (initSim 5 5 1)

/-- The spec reading of the hotspot map: the number of movement-history entries
of all workers at the given cell in the current run. -/
def historyVisitCount (s : SimState) (p : Pos) : Nat :=
  (s.workers.map fun wk => (wk.movement_history.filter fun e => e.2 = p).length).sum

/-- Worker-side total of picked items. -/
def totalPicked (ws : List Worker) : Nat :=
  (ws.map Worker.total_items_picked).sum

/-- Indices of the orders whose assigned_worker is set. -/
def assignedIdxs (os : List Order) : List Nat :=
  (List.range os.length).filter fun i =>
    ((os.get? i).map fun o => o.assigned_worker.isSome).getD false

/-- Sum of the current backlog lengths over the orders whose assigned_worker is
set. -/
def assignedBacklogSum (os : List Order) : Nat :=
  ((assignedIdxs os).map fun i =>
    ((os.get? i).map fun o => o.items.length).getD 0).sum

/-- Sum of the original (creation-time) item counts, as recorded by the ghost
map orig, over the orders whose assigned_worker is set. -/
def assignedOrigSum (orig : Nat → Nat) (os : List Order) : Nat :=
  ((assignedIdxs os).map orig).sum

/-- assignedBacklogSum written as an indicator sum over all order indices,
the shape the accounting induction steps through point updates. -/
def backlogSumI (os : List Order) : Nat :=
  ((List.range os.length).map fun i =>
    ((os.get? i).map fun o => if o.assigned_worker.isSome then o.items.length else 0).getD 0).sum

/-- assignedOrigSum as the matching indicator sum. -/
def origSumI (orig : Nat → Nat) (os : List Order) : Nat :=
  ((List.range os.length).map fun i =>
    if ((os.get? i).map fun o => o.assigned_worker.isSome).getD false then orig i else 0).sum

/-- A walk through the adjacency graph from s to t: nonempty node list starting
at s, ending at t, each node adjacent to its predecessor. -/
def ValidWalk (adj : Pos → List Pos) (s t : Pos) (p : List Pos) : Prop :=
  p.head? = some s ∧ p.getLast? = some t ∧ List.Chain' (fun u v => v ∈ adj u) p

/-- q is the first element of l attaining the minimum Manhattan distance to
pos: everything strictly before q is strictly farther, nothing in l is closer. -/
def FirstMin (pos : Pos) (l : List Pos) (q : Pos) : Prop :=
  (∃ l₁ l₂, l = l₁ ++ q :: l₂ ∧ ∀ r ∈ l₁, manhattan q pos < manhattan r pos) ∧
  ∀ r ∈ l, manhattan q pos ≤ manhattan r pos

/-- Erase the wall-clock-derived data of an order (its created_time). -/
def eraseO (o : Order) : Order := { o with created_time := 0 }

/-- Erase all wall-clock-derived data of a state: order creation times and the
one stats field computed from them (avg_order_completion_time).  Two states
with the same erasure behave identically except for those values. -/
def eraseWall (s : SimState) : SimState :=
  { s with orders := s.orders.map eraseO,
           stats := { s.stats with avg_order_completion_time := 0 } }

/-- An order index that the running simulator no longer references: not
pending, and no worker's current order. -/
def Orphaned (i : Nat) (s : SimState) : Prop :=
  i ∉ s.pending_orders ∧ ∀ wk ∈ s.workers, wk.current_order ≠ some i

/-- The per-order side condition of the conservation invariant: an unassigned
order still holds its original item count, and every item of the order has a
storage location. -/
def goodOrderB (w h : Nat) (orig : Nat → Nat) (i : Nat) (o : Order) : Bool :=
  (o.assigned_worker.isSome || o.items.length == orig i) &&
    o.items.all fun item => (storage_location w h item).isSome

/-- The per-worker side condition: a held current order exists and is assigned. -/
def goodWorkerB (os : List Order) (wk : Worker) : Bool :=
  match wk.current_order with
  | none => true
  | some i => ((os.get? i).map fun o => o.assigned_worker.isSome).getD false

/-- The conservation invariant of C9 together with the side conditions that
keep it inductive, over a worker and order snapshot (also the intermediate
snapshots inside a tick). -/
@[reducible] def GoodPhase (w h : Nat) (orig : Nat → Nat) (ws : List Worker) (os : List Order) : Prop :=
  (∀ i < os.length,
      ((os.get? i).map (goodOrderB w h orig i)).getD true = true) ∧
  (∀ wk ∈ ws, goodWorkerB os wk = true) ∧
  totalPicked ws + assignedBacklogSum os = assignedOrigSum orig os

/-- The conservation invariant of C9 on a simulator state. -/
@[reducible] def GoodC9 (orig : Nat → Nat) (s : SimState) : Prop :=
  GoodPhase s.width s.height orig s.workers s.orders

/-- Concrete worker for witnesses: busy at the station, holding order index 0. -/
def c8Worker : Worker :=
  { worker_id := 1, position := (1, 3), current_order := some 0, is_busy := true }

/-- Concrete order whose first item 999 has no storage location on the 5x5 map. -/
def c8Order : Order := { order_id := 1, items := [999, 1], priority := 1, created_time := 0 }

/-- Concrete idle workers and orders for the C7 witness: order index 1 has the
higher priority (lower number). -/
def c7u : Worker := { worker_id := 1, position := (1, 3) }

/-- Second idle worker for the C7 witness. -/
def c7v : Worker := { worker_id := 2, position := (1, 3) }

/-- Two pending one-item orders: index 0 low priority (3), index 1 high (1). -/
def c7orders : List Order :=
  [{ order_id := 1, items := [1], priority := 3, created_time := 0 },
   { order_id := 2, items := [1], priority := 1, created_time := 0 }]

/-- The movement history both C3 runs produce: one zero-distance step onto the
start of each planned leg, then the leg itself, out to (2,0) and back. -/
def scenarioHistory : List (List (Rat × Pos)) :=
  [[(2, (1, 3)), (3, (1, 2)), (4, (1, 1)), (5, (1, 0)), (6, (2, 0)),
    (7, (2, 0)), (8, (1, 0)), (9, (1, 1)), (10, (1, 2)), (11, (1, 3))]]

/-- Initial state for the C9 counterexample: one order whose single item 999
has no storage location on the 5x5 map. -/
def badItemInit : SimState :=
  { initSim 5 5 1 with
    orders := [{ order_id := 1, items := [999], priority := 1, created_time := 0 }],
    pending_orders := [0] }

/-- Two orders with known items for the C10 witness: the busy worker c8Worker
holds index 0 and is unconditionally reassigned index 1. -/
def c10orders : List Order :=
  [{ order_id := 1, items := [1], priority := 1, created_time := 0 },
   { order_id := 2, items := [1], priority := 2, created_time := 0 }]

theorem reach_succ (adj : Pos → List Pos) (s : Pos) (n : Nat) :
    reach adj s (n + 1) = bfsStep adj (reach adj s n) := rfl

theorem mem_reach_self (adj : Pos → List Pos) (s : Pos) (n : Nat) : s ∈ reach adj s n := by
  induction n with
  | zero => simp [reach]
  | succ n ih => rw [reach_succ]; exact List.mem_append_left _ ih

theorem reach_subset_succ (adj : Pos → List Pos) (s : Pos) (n : Nat) :
    reach adj s n ⊆ reach adj s (n + 1) := by
  intro x hx; rw [reach_succ]; exact List.mem_append_left _ hx

theorem reach_mono (adj : Pos → List Pos) (s : Pos) {m n : Nat} (hmn : m ≤ n) :
    reach adj s m ⊆ reach adj s n := by
  induction n with
  | zero => cases Nat.le_zero.mp hmn; exact fun x hx => hx
  | succ n ih =>
    rcases Nat.lt_or_ge m (n + 1) with hlt | hge
    · exact fun x hx => reach_subset_succ adj s n (ih (by omega) hx)
    · have : m = n + 1 := by omega
      subst this; exact fun x hx => hx

theorem mem_reach_step {adj : Pos → List Pos} {s : Pos} {n : Nat} {u v : Pos}
    (hu : u ∈ reach adj s n) (hv : v ∈ adj u) : v ∈ reach adj s (n + 1) := by
  by_cases hin : v ∈ reach adj s n
  · exact reach_subset_succ adj s n hin
  · rw [reach_succ]
    refine List.mem_append_right _ ?_
    rw [List.mem_dedup, List.mem_filter]
    refine ⟨List.mem_flatMap.mpr ⟨u, hu, hv⟩, ?_⟩
    simpa using hin

theorem validWalk_singleton (adj : Pos → List Pos) (s : Pos) : ValidWalk adj s s [s] :=
  ⟨rfl, rfl, List.chain'_singleton s⟩

theorem validWalk_append_adj {adj : Pos → List Pos} {s u t : Pos} {p : List Pos}
    (hw : ValidWalk adj s u p) (ht : t ∈ adj u) : ValidWalk adj s t (p ++ [t]) := by
  obtain ⟨hh, hl, hc⟩ := hw
  cases p with
  | nil => cases hh
  | cons a p' =>
    have ha : a = s := by simpa using hh
    subst ha
    refine ⟨by simp, ?_, ?_⟩
    · exact List.getLast?_concat _
    rw [List.chain'_append]
    refine ⟨hc, List.chain'_singleton t, ?_⟩
    intro x hx y hy
    simp only [List.head?_cons, Option.mem_def, Option.some.injEq] at hy
    subst hy
    rw [hl] at hx
    simp only [Option.mem_def, Option.some.injEq] at hx
    subst hx
    exact ht

theorem reach_sound {adj : Pos → List Pos} {s : Pos} :
    ∀ {n : Nat} {t : Pos}, t ∈ reach adj s n →
      ∃ p, ValidWalk adj s t p ∧ p.length ≤ n + 1 := by
  intro n
  induction n with
  | zero =>
    intro t ht
    refine ⟨[s], ?_, by simp⟩
    have ht' : t = s := by simpa [reach] using ht
    rw [ht']
    exact validWalk_singleton adj s
  | succ n ih =>
    intro t ht
    rw [reach_succ] at ht
    rcases List.mem_append.mp ht with hin | hnew
    · obtain ⟨p, hp, hl⟩ := ih hin
      exact ⟨p, hp, by omega⟩
    · rw [List.mem_dedup, List.mem_filter] at hnew
      obtain ⟨hfm, -⟩ := hnew
      obtain ⟨u, hu, huv⟩ := List.mem_flatMap.mp hfm
      obtain ⟨p, hp, hlen⟩ := ih hu
      refine ⟨p ++ [t], validWalk_append_adj hp huv, ?_⟩
      simp only [List.length_append, List.length_singleton]
      omega

theorem chain_reach {adj : Pos → List Pos} {s : Pos} :
    ∀ (p : List Pos) (u t : Pos) (n : Nat), u ∈ reach adj s n →
      List.Chain' (fun a b => b ∈ adj a) (u :: p) → (u :: p).getLast? = some t →
      t ∈ reach adj s (n + p.length) := by
  intro p
  induction p with
  | nil =>
    intro u t n hu _ hlast
    simp only [List.getLast?_singleton, Option.some.injEq] at hlast
    subst hlast
    simpa using hu
  | cons v p' ih =>
    intro u t n hu hc hlast
    rw [List.chain'_cons] at hc
    obtain ⟨huv, hc'⟩ := hc
    have hv : v ∈ reach adj s (n + 1) := mem_reach_step hu huv
    have hl : (v :: p').getLast? = some t := by
      simpa using hlast
    have := ih v t (n + 1) hv hc' hl
    have he : n + 1 + p'.length = n + (v :: p').length := by simp; omega
    rw [he] at this
    exact this

theorem walk_reach {adj : Pos → List Pos} {s t : Pos} {p : List Pos}
    (hw : ValidWalk adj s t p) : t ∈ reach adj s (p.length - 1) := by
  obtain ⟨hh, hl, hc⟩ := hw
  cases p with
  | nil => cases hh
  | cons a p' =>
    have ha : a = s := by simpa using hh
    have hcr := chain_reach p' a t 0 (mem_reach_self adj a 0) hc hl
    rw [ha] at hcr
    simpa using hcr

theorem reach_nodup (adj : Pos → List Pos) (s : Pos) (n : Nat) : (reach adj s n).Nodup := by
  induction n with
  | zero => simp [reach]
  | succ n ih =>
    rw [reach_succ]
    refine List.Nodup.append ih (List.nodup_dedup _) ?_
    intro x hx hx2
    rw [List.mem_dedup, List.mem_filter] at hx2
    have h2 := hx2.2
    simp at h2
    exact h2 hx

theorem reach_subset_domain {adj : Pos → List Pos} {s : Pos} {dom : List Pos}
    (hs : s ∈ dom) (hadj : ∀ u x, x ∈ adj u → x ∈ dom) (n : Nat) :
    ∀ x ∈ reach adj s n, x ∈ dom := by
  induction n with
  | zero => intro x hx; simp [reach] at hx; subst hx; exact hs
  | succ n ih =>
    intro x hx
    rw [reach_succ] at hx
    rcases List.mem_append.mp hx with hin | hnew
    · exact ih x hin
    · rw [List.mem_dedup, List.mem_filter] at hnew
      obtain ⟨u, _, hux⟩ := List.mem_flatMap.mp hnew.1
      exact hadj u x hux

theorem nodup_length_le {l dom : List Pos} (hn : l.Nodup) (hsub : ∀ x ∈ l, x ∈ dom) :
    l.length ≤ dom.length := by
  classical
  have h1 : l.toFinset.card = l.length := List.toFinset_card_of_nodup hn
  have h2 : l.toFinset ⊆ dom.toFinset := fun x hx =>
    List.mem_toFinset.mpr (hsub x (List.mem_toFinset.mp hx))
  calc l.length = l.toFinset.card := h1.symm
    _ ≤ dom.toFinset.card := Finset.card_le_card h2
    _ ≤ dom.length := dom.toFinset_card_le

theorem reach_stable_add {adj : Pos → List Pos} {s : Pos} {k : Nat}
    (hst : reach adj s (k + 1) = reach adj s k) (m : Nat) :
    reach adj s (k + m) = reach adj s k := by
  induction m with
  | zero => rfl
  | succ m ih =>
    have h2 : k + (m + 1) = (k + m) + 1 := by omega
    calc reach adj s (k + (m + 1)) = reach adj s ((k + m) + 1) := by rw [h2]
      _ = bfsStep adj (reach adj s (k + m)) := rfl
      _ = bfsStep adj (reach adj s k) := by rw [ih]
      _ = reach adj s (k + 1) := rfl
      _ = reach adj s k := hst

theorem append_ne_length {l e : List Pos} (hne : l ++ e ≠ l) :
    l.length + 1 ≤ (l ++ e).length := by
  cases e with
  | nil => simp at hne
  | cons a e' => simp [List.length_append]

theorem reach_grow {adj : Pos → List Pos} {s : Pos} {n : Nat}
    (hne : reach adj s (n + 1) ≠ reach adj s n) :
    (reach adj s n).length + 1 ≤ (reach adj s (n + 1)).length := by
  rw [reach_succ] at hne ⊢
  unfold bfsStep at hne ⊢
  exact append_ne_length hne

theorem reach_eventually_stable {adj : Pos → List Pos} {s : Pos} {dom : List Pos}
    (hs : s ∈ dom) (hadj : ∀ u x, x ∈ adj u → x ∈ dom) :
    ∃ k ≤ dom.length, reach adj s (k + 1) = reach adj s k := by
  by_contra hc
  push_neg at hc
  have grow : ∀ n, n ≤ dom.length + 1 → n + 1 ≤ (reach adj s n).length := by
    intro n
    induction n with
    | zero => intro _; simp [reach]
    | succ n ih =>
      intro hn
      have h1 := ih (by omega)
      have h2 := reach_grow (hc n (by omega))
      omega
  have hb := nodup_length_le (reach_nodup adj s (dom.length + 1))
    (reach_subset_domain hs hadj (dom.length + 1))
  have := grow (dom.length + 1) (le_refl _)
  omega

theorem mem_reach_fuel {adj : Pos → List Pos} {s : Pos} {dom : List Pos} {t : Pos} {n : Nat}
    (hs : s ∈ dom) (hadj : ∀ u x, x ∈ adj u → x ∈ dom) (ht : t ∈ reach adj s n) :
    t ∈ reach adj s dom.length := by
  obtain ⟨k, hk, hstab⟩ := reach_eventually_stable hs hadj
  rcases le_or_lt n dom.length with hle | hgt
  · exact reach_mono adj s hle ht
  · have h1 : reach adj s n = reach adj s k := by
      have := reach_stable_add hstab (n - k)
      rw [show k + (n - k) = n by omega] at this
      exact this
    rw [h1] at ht
    exact reach_mono adj s hk ht

theorem buildPath_spec {adj : Pos → List Pos} {s : Pos} :
    ∀ (k : Nat) (t : Pos), t ∈ reach adj s k →
      ∃ m, m ≤ k ∧ t ∈ reach adj s m ∧ (∀ j, t ∈ reach adj s j → m ≤ j) ∧
        ValidWalk adj s t (buildPath adj s k t) ∧ (buildPath adj s k t).length = m + 1 := by
  intro k
  induction k with
  | zero =>
    intro t ht
    have ht' : t = s := by simpa [reach] using ht
    refine ⟨0, le_refl _, ht, fun j _ => Nat.zero_le j, ?_, rfl⟩
    show ValidWalk adj s t [t]
    rw [ht']
    exact validWalk_singleton adj s
  | succ k ih =>
    intro t ht
    by_cases hin : t ∈ reach adj s k
    · obtain ⟨m, hm, hmem, hmin, hwalk, hlen⟩ := ih t hin
      refine ⟨m, by omega, hmem, hmin, ?_, ?_⟩
      · show ValidWalk adj s t (buildPath adj s (k + 1) t)
        unfold buildPath
        rw [if_pos hin]
        exact hwalk
      · show (buildPath adj s (k + 1) t).length = m + 1
        unfold buildPath
        rw [if_pos hin]
        exact hlen
    · have hfind : ∃ u ∈ reach adj s k, t ∈ adj u := by
        rw [reach_succ] at ht
        rcases List.mem_append.mp ht with habs | hnew
        · exact absurd habs hin
        · rw [List.mem_dedup, List.mem_filter] at hnew
          obtain ⟨u, hu, hut⟩ := List.mem_flatMap.mp hnew.1
          exact ⟨u, hu, hut⟩
      cases hfq : (reach adj s k).find? fun u => decide (t ∈ adj u) with
      | none =>
        rw [List.find?_eq_none] at hfq
        obtain ⟨u, hu, hut⟩ := hfind
        exact absurd (by simpa using hut) (by simpa using hfq u hu)
      | some u =>
        have hu : u ∈ reach adj s k := List.mem_of_find?_eq_some hfq
        have hut : t ∈ adj u := by simpa using List.find?_some hfq
        obtain ⟨m, hm, hmem, hmin, hwalk, hlen⟩ := ih u hu
        have hmk : m = k := by
          rcases Nat.lt_or_ge m k with hlt | hge
          · exfalso
            have : t ∈ reach adj s (m + 1) := mem_reach_step hmem hut
            exact hin (reach_mono adj s (by omega) this)
          · omega
        subst hmk
        refine ⟨m + 1, by omega, mem_reach_step hmem hut, ?_, ?_, ?_⟩
        · intro j hj
          rcases le_or_lt j m with hle | hgt
          · exact absurd (reach_mono adj s hle hj) hin
          · omega
        · show ValidWalk adj s t (buildPath adj s (m + 1) t)
          unfold buildPath
          rw [if_neg hin, hfq]
          exact validWalk_append_adj hwalk hut
        · show (buildPath adj s (m + 1) t).length = m + 1 + 1
          unfold buildPath
          rw [if_neg hin, hfq]
          rw [List.length_append, hlen]
          rfl

theorem manhattan_self (p : Pos) : manhattan p p = 0 := by
  simp [manhattan]

theorem manhattan_eq_zero {a b : Pos} : manhattan a b = 0 ↔ a = b := by
  unfold manhattan
  constructor
  · intro h0
    have h1 : a.1 = b.1 := by omega
    have h2 : a.2 = b.2 := by omega
    exact Prod.ext h1 h2
  · intro h0; subst h0; simp

theorem mem_walkable_paths {w h : Nat} {p : Pos} :
    p ∈ walkable_paths w h ↔ walkableCell w h p = true := by
  constructor
  · intro hp
    simp only [walkable_paths, List.mem_flatMap, List.mem_filterMap, List.mem_range] at hp
    obtain ⟨y, _, x, _, hxe⟩ := hp
    by_cases hc : walkableCell w h ((x : Int), (y : Int)) = true
    · simp only [hc, if_pos] at hxe
      cases hxe; exact hc
    · simp only [hc] at hxe; simp at hxe
  · intro hc
    have hb : inBounds w h p = true := by
      have := hc; unfold walkableCell at this
      exact (Bool.and_eq_true _ _ |>.mp this).1
    unfold inBounds at hb
    simp only [Bool.and_eq_true, decide_eq_true_eq] at hb
    obtain ⟨⟨⟨h1, h2⟩, h3⟩, h4⟩ := hb
    have t1 : (p.1.toNat : Int) = p.1 := Int.toNat_of_nonneg h1
    have t2 : (p.2.toNat : Int) = p.2 := Int.toNat_of_nonneg h3
    have hx : p.1.toNat ∈ List.range w := List.mem_range.mpr (by exact_mod_cast t1 ▸ h2)
    have hy : p.2.toNat ∈ List.range h := List.mem_range.mpr (by exact_mod_cast t2 ▸ h4)
    have e1 : ((p.1.toNat : Int), (p.2.toNat : Int)) = p := Prod.ext t1 t2
    unfold walkable_paths
    refine List.mem_flatMap.mpr ⟨p.2.toNat, hy, List.mem_filterMap.mpr ⟨p.1.toNat, hx, ?_⟩⟩
    rw [e1, if_pos hc]

theorem exists_first_occ {l : List Pos} {a : Pos} (hmem : a ∈ l) :
    ∃ l₁ l₂, l = l₁ ++ a :: l₂ ∧ a ∉ l₁ := by
  induction l with
  | nil => cases hmem
  | cons b bs ih =>
    by_cases hab : a = b
    · exact ⟨[], bs, by rw [hab]; rfl, by simp⟩
    · have : a ∈ bs := by
        cases List.mem_cons.mp hmem with
        | inl hh => exact absurd hh hab
        | inr hh => exact hh
      obtain ⟨l₁, l₂, he, hni⟩ := ih this
      exact ⟨b :: l₁, l₂, by rw [he]; rfl, by simp [hni, hab]⟩

theorem nearestGo_firstMin (pos : Pos) :
    ∀ (l : List Pos) (best : Pos),
      FirstMin pos (best :: l) (nearestGo pos best (manhattan best pos) l) := by
  intro l
  induction l with
  | nil =>
    intro best
    exact ⟨⟨[], [], rfl, by simp⟩, by intro r hr; simp at hr; subst hr; exact le_refl _⟩
  | cons r rest ih =>
    intro best
    show FirstMin pos (best :: r :: rest)
        (if manhattan r pos < manhattan best pos then nearestGo pos r (manhattan r pos) rest
         else nearestGo pos best (manhattan best pos) rest)
    by_cases hlt : manhattan r pos < manhattan best pos
    · rw [if_pos hlt]
      obtain ⟨⟨l₁, l₂, he, hstrict⟩, hmin⟩ := ih r
      refine ⟨⟨best :: l₁, l₂, by rw [List.cons_append, he], ?_⟩, ?_⟩
      · intro x hx
        cases List.mem_cons.mp hx with
        | inl hh =>
          subst hh
          have : manhattan (nearestGo pos r (manhattan r pos) rest) pos ≤ manhattan r pos :=
            hmin r (by simp)
          omega
        | inr hh => exact hstrict x hh
      · intro x hx
        cases List.mem_cons.mp hx with
        | inl hh =>
          subst hh
          have : manhattan (nearestGo pos r (manhattan r pos) rest) pos ≤ manhattan r pos :=
            hmin r (by simp)
          omega
        | inr hh => exact hmin x hh
    · rw [if_neg hlt]
      obtain ⟨⟨l₁, l₂, he, hstrict⟩, hmin⟩ := ih best
      have hminFull : ∀ x ∈ best :: r :: rest,
          manhattan (nearestGo pos best (manhattan best pos) rest) pos ≤ manhattan x pos := by
        intro x hx
        have hbr : manhattan (nearestGo pos best (manhattan best pos) rest) pos
            ≤ manhattan best pos := hmin best (by simp)
        rcases List.mem_cons.mp hx with hh | hh
        · subst hh; exact hmin x (by simp)
        rcases List.mem_cons.mp hh with hh2 | hh2
        · subst hh2; omega
        · exact hmin x (by simp [hh2])
      cases l₁ with
      | nil =>
        have hbe : best = nearestGo pos best (manhattan best pos) rest := by
          simpa using congrArg (fun t => t.head?) he
        refine ⟨⟨[], r :: rest, ?_, by simp⟩, hminFull⟩
        simp only [List.nil_append]
        exact congrArg (fun z => z :: r :: rest) hbe
      | cons b tail =>
        have hbe : best = b := by
          simpa using congrArg (fun t => t.head?) he
        subst hbe
        have htail : rest = tail ++ nearestGo pos best (manhattan best pos) rest :: l₂ := by
          simpa using congrArg List.tail he
        refine ⟨⟨best :: r :: tail, l₂, ?_, ?_⟩, hminFull⟩
        · conv_lhs => rw [htail]
          simp
        · intro x hx
          have hsb : manhattan (nearestGo pos best (manhattan best pos) rest) pos
              < manhattan best pos := hstrict best (by simp)
          rcases List.mem_cons.mp hx with hh | hh
          · subst hh; exact hsb
          rcases List.mem_cons.mp hh with hh2 | hh2
          · subst hh2; omega
          · exact hstrict x (by simp [hh2])

theorem get_nearest_walkable_spec (w h : Nat) (pos : Pos)
    (hne : walkable_paths w h ≠ []) :
    ∃ q, get_nearest_walkable w h pos = some q ∧ FirstMin pos (walkable_paths w h) q := by
  unfold get_nearest_walkable
  by_cases hp : pos ∈ walkable_paths w h
  · rw [if_pos hp]
    refine ⟨pos, rfl, ?_⟩
    obtain ⟨l₁, l₂, he, hni⟩ := exists_first_occ hp
    refine ⟨⟨l₁, l₂, he, ?_⟩, ?_⟩
    · intro r hr
      have hne2 : r ≠ pos := fun hc => hni (hc ▸ hr)
      have : manhattan r pos ≠ 0 := fun hc => hne2 (manhattan_eq_zero.mp hc)
      rw [manhattan_self]; omega
    · intro r _; rw [manhattan_self]; exact Nat.zero_le _
  · rw [if_neg hp]
    cases hwp : walkable_paths w h with
    | nil => exact absurd hwp hne
    | cons r rest =>
      exact ⟨_, rfl, hwp ▸ nearestGo_firstMin pos rest r⟩

theorem origin_walkable {w h : Nat} (hw : 1 ≤ w) (hh : 1 ≤ h) :
    ((0, 0) : Pos) ∈ walkable_paths w h := by
  rw [mem_walkable_paths]
  unfold walkableCell inBounds isShelf
  simp only [Bool.and_eq_true, decide_eq_true_eq, Bool.not_eq_true']
  refine ⟨⟨⟨⟨le_refl _, ?_⟩, le_refl _⟩, ?_⟩, ?_⟩
  · exact_mod_cast hw
  · exact_mod_cast hh
  · simp

/-- C6: for every constructible topology (width, height >= 2) and every
position, get_nearest_walkable returns some cell, which is the first walkable
cell in scan order attaining the minimum Manhattan distance to the position;
moreover the walkable-cell list is never empty, so the no-walkable-cells
failure branch of the claim can never be taken (the spec's degenerate
configuration does not construct: WarehouseMap.__init__ would already fail
placing the picking station). -/
theorem C6_nearest_walkable (w h : Nat) (hw : 2 ≤ w) (hh : 2 ≤ h) (pos : Pos) :
    walkable_paths w h ≠ [] ∧
    ∃ q, get_nearest_walkable w h pos = some q ∧ q ∈ walkable_paths w h ∧
      FirstMin pos (walkable_paths w h) q := by
  have hne : walkable_paths w h ≠ [] := by
    intro hc
    have := origin_walkable (w := w) (h := h) (by omega) (by omega)
    rw [hc] at this; cases this
  obtain ⟨q, hq, hfm⟩ := get_nearest_walkable_spec w h pos hne
  refine ⟨hne, q, hq, ?_, hfm⟩
  obtain ⟨⟨l₁, l₂, he, _⟩, _⟩ := hfm
  rw [he]; simp

/-- C6 witness: the theorem applied on the 5x5 map at the shelf cell (2,1). -/
theorem C6_nearest_walkable_witness :
    2 ≤ 5 ∧
    (walkable_paths 5 5 ≠ [] ∧
     ∃ q, get_nearest_walkable 5 5 ((2, 1) : Pos) = some q ∧ q ∈ walkable_paths 5 5 ∧
       FirstMin ((2, 1) : Pos) (walkable_paths 5 5) q) :=
  ⟨by decide, C6_nearest_walkable 5 5 (by decide) (by decide) ((2, 1) : Pos)⟩

theorem neighbors_walkable {w h : Nat} {p q : Pos} (hq : q ∈ neighborsOf w h p) :
    q ∈ walkable_paths w h :=
  mem_walkable_paths.mpr (List.mem_filter.mp hq).2

theorem isShelf_iff {w h : Nat} {p : Pos} :
    isShelf w h p = true ↔
      2 ≤ p.1 ∧ p.1 < (w : Int) - 2 ∧ (p.1 - 2) % 3 = 0 ∧
      1 ≤ p.2 ∧ p.2 < (h : Int) - 1 ∧ p.2 % 4 ≠ 0 := by
  unfold isShelf
  simp only [Bool.and_eq_true, decide_eq_true_eq, and_assoc]

theorem inBounds_iff {w h : Nat} {p : Pos} :
    inBounds w h p = true ↔ 0 ≤ p.1 ∧ p.1 < (w : Int) ∧ 0 ≤ p.2 ∧ p.2 < (h : Int) := by
  unfold inBounds
  simp only [Bool.and_eq_true, decide_eq_true_eq, and_assoc]

theorem walkableCell_iff {w h : Nat} {p : Pos} :
    walkableCell w h p = true ↔
      (0 ≤ p.1 ∧ p.1 < (w : Int) ∧ 0 ≤ p.2 ∧ p.2 < (h : Int)) ∧
      ¬(2 ≤ p.1 ∧ p.1 < (w : Int) - 2 ∧ (p.1 - 2) % 3 = 0 ∧
        1 ≤ p.2 ∧ p.2 < (h : Int) - 1 ∧ p.2 % 4 ≠ 0) := by
  rw [walkableCell, Bool.and_eq_true, inBounds_iff]
  constructor
  · rintro ⟨hb, hn⟩
    refine ⟨hb, fun hc => ?_⟩
    rw [isShelf_iff.mpr hc] at hn
    simp at hn
  · rintro ⟨hb, hn⟩
    refine ⟨hb, ?_⟩
    cases hsf : isShelf w h p
    · rfl
    · exact absurd (isShelf_iff.mp hsf) hn

theorem walkable_neighbor_exists {w h : Nat} (hw : 2 ≤ w) (hh : 2 ≤ h) {p : Pos}
    (hp : walkableCell w h p = true) : neighborsOf w h p ≠ [] := by
  obtain ⟨⟨b1, b2, b3, b4⟩, hns⟩ := walkableCell_iff.mp hp
  have hw2 : (2 : Int) ≤ (w : Int) := by exact_mod_cast hw
  have hh2 : (2 : Int) ≤ (h : Int) := by exact_mod_cast hh
  by_cases hcol : 2 ≤ p.1 ∧ p.1 < (w : Int) - 2 ∧ (p.1 - 2) % 3 = 0
  · obtain ⟨c1, c2, c3⟩ := hcol
    have hq : walkableCell w h (p.1 - 1, p.2) = true := by
      rw [walkableCell_iff]
      refine ⟨⟨by omega, by omega, b3, b4⟩, ?_⟩
      rintro ⟨d1, d2, d3, -⟩
      simp only at d3
      omega
    exact List.ne_nil_of_mem (List.mem_filter.mpr ⟨by simp, hq⟩)
  · by_cases hup : p.2 + 1 < (h : Int)
    · have hq : walkableCell w h (p.1, p.2 + 1) = true := by
        rw [walkableCell_iff]
        refine ⟨⟨b1, b2, by omega, by omega⟩, ?_⟩
        rintro ⟨d1, d2, d3, -⟩
        exact hcol ⟨d1, d2, d3⟩
      exact List.ne_nil_of_mem (List.mem_filter.mpr ⟨by simp, hq⟩)
    · have hq : walkableCell w h (p.1, p.2 - 1) = true := by
        rw [walkableCell_iff]
        refine ⟨⟨b1, b2, by omega, by omega⟩, ?_⟩
        rintro ⟨d1, d2, d3, -⟩
        exact hcol ⟨d1, d2, d3⟩
      exact List.ne_nil_of_mem (List.mem_filter.mpr ⟨by simp, hq⟩)

theorem walkable_mem_graph_nodes {w h : Nat} (hw : 2 ≤ w) (hh : 2 ≤ h) {p : Pos}
    (hp : p ∈ walkable_paths w h) : p ∈ graph_nodes w h := by
  unfold graph_nodes
  rw [List.mem_filter]
  refine ⟨hp, ?_⟩
  have := walkable_neighbor_exists hw hh (mem_walkable_paths.mp hp)
  simpa using this

theorem firstMin_mem {pos : Pos} {l : List Pos} {q : Pos} (hfm : FirstMin pos l q) :
    q ∈ l := by
  obtain ⟨⟨l₁, l₂, he, -⟩, -⟩ := hfm
  rw [he]; simp

/-- C5: for every constructible topology (the Python constructor needs width
and height at least 2) and every pair of positions, both endpoints snap to some
walkable cells s and t; when s and t are connected in the walkable-cell
adjacency graph (a walk exists), find_shortest_path returns a path that is a
valid walk from s to t of minimal length among all walks (so its hop count is
the BFS shortest-hop-count), and when they are not connected it returns the
empty list rather than failing.  The NodeNotFound branch is unreachable here
because on such topologies every walkable cell has a walkable neighbor, hence
belongs to the edge-built networkx graph. -/
theorem C5_find_shortest_path (w h : Nat) (hw : 2 ≤ w) (hh : 2 ≤ h) (a b : Pos) :
    ∃ s t, get_nearest_walkable w h a = some s ∧ get_nearest_walkable w h b = some t ∧
      ((∃ q, ValidWalk (neighborsOf w h) s t q) →
        ∃ p, find_shortest_path w h a b = .ok p ∧ ValidWalk (neighborsOf w h) s t p ∧
          ∀ q, ValidWalk (neighborsOf w h) s t q → p.length ≤ q.length) ∧
      ((¬ ∃ q, ValidWalk (neighborsOf w h) s t q) → find_shortest_path w h a b = .ok []) := by
  have hne : walkable_paths w h ≠ [] :=
    List.ne_nil_of_mem (origin_walkable (by omega) (by omega))
  obtain ⟨s, hs, hsFM⟩ := get_nearest_walkable_spec w h a hne
  obtain ⟨t, ht, htFM⟩ := get_nearest_walkable_spec w h b hne
  have hsw : s ∈ walkable_paths w h := firstMin_mem hsFM
  have htw : t ∈ walkable_paths w h := firstMin_mem htFM
  have hsg : s ∈ graph_nodes w h := walkable_mem_graph_nodes hw hh hsw
  have htg : t ∈ graph_nodes w h := walkable_mem_graph_nodes hw hh htw
  have hdom : ∀ u x, x ∈ neighborsOf w h u → x ∈ walkable_paths w h :=
    fun u x hx => neighbors_walkable hx
  refine ⟨s, t, hs, ht, ?_, ?_⟩
  · rintro ⟨q, hq⟩
    have htr : t ∈ reach (neighborsOf w h) s (fuelOf w h) :=
      mem_reach_fuel hsw hdom (walk_reach hq)
    obtain ⟨m, hm, hmem, hmin, hwalk, hlen⟩ := buildPath_spec (fuelOf w h) t htr
    refine ⟨buildPath (neighborsOf w h) s (fuelOf w h) t, ?_, hwalk, ?_⟩
    · unfold find_shortest_path
      rw [hs, ht]
      simp only [if_pos (And.intro hsg htg), if_pos htr]
    · intro q2 hq2
      have hq2r := walk_reach hq2
      have hq2min : m ≤ q2.length - 1 := hmin _ hq2r
      have hq2ne : q2 ≠ [] := by
        obtain ⟨hh2, -, -⟩ := hq2
        intro hc; rw [hc] at hh2; cases hh2
      have h1 : 1 ≤ q2.length := List.length_pos.mpr hq2ne
      omega
  · intro hnc
    have htr : t ∉ reach (neighborsOf w h) s (fuelOf w h) := by
      intro hc
      obtain ⟨p, hp, -⟩ := reach_sound hc
      exact hnc ⟨p, hp⟩
    unfold find_shortest_path
    rw [hs, ht]
    simp only [if_pos (And.intro hsg htg), if_neg htr]

/-- C5 witness: the theorem applied to the 5x5 map with endpoints (1,3) and
the shelf cell (2,1). -/
theorem C5_find_shortest_path_witness :
    2 ≤ 5 ∧
    (∃ s t, get_nearest_walkable 5 5 ((1, 3) : Pos) = some s ∧
      get_nearest_walkable 5 5 ((2, 1) : Pos) = some t ∧
      ((∃ q, ValidWalk (neighborsOf 5 5) s t q) →
        ∃ p, find_shortest_path 5 5 (1, 3) (2, 1) = .ok p ∧
          ValidWalk (neighborsOf 5 5) s t p ∧
          ∀ q, ValidWalk (neighborsOf 5 5) s t q → p.length ≤ q.length) ∧
      ((¬ ∃ q, ValidWalk (neighborsOf 5 5) s t q) →
        find_shortest_path 5 5 (1, 3) (2, 1) = .ok [])) :=
  ⟨by decide, C5_find_shortest_path 5 5 (by decide) (by decide) (1, 3) (2, 1)⟩

theorem planFromItems_nil (w h : Nat) (pos : Pos) :
    planFromItems w h pos [] =
      (find_shortest_path w h pos (picking_station w h)).toOption.map
        (fun p => (p, [], [LogMsg.returningToStation])) := by
  conv_lhs => rw [planFromItems]
  cases (find_shortest_path w h pos (picking_station w h)).toOption <;> rfl

theorem planFromItems_unknown {w h : Nat} {pos : Pos} {item : Nat} {rest : List Nat}
    (hmiss : storage_location w h item = none) :
    planFromItems w h pos (item :: rest) =
      (planFromItems w h pos rest).map
        (fun r => (r.1, r.2.1, LogMsg.itemNotFound item :: r.2.2)) := by
  conv_lhs => rw [planFromItems]
  rw [hmiss]
  cases hpf : planFromItems w h pos rest with
  | none => rfl
  | some r => rfl

theorem plan_path_none {w h : Nat} {wk : Worker} {os : List Order}
    (hcur : wk.current_order = none) :
    plan_path_to_next_item w h wk os =
      (find_shortest_path w h wk.position (picking_station w h)).toOption.map
        (fun p =>
          ({ wk with
              path := p, path_index := 0,
              activity_log := wk.activity_log ++ [LogMsg.returningToStation] }, os)) := by
  unfold plan_path_to_next_item
  nth_rewrite 1 [hcur]
  cases (find_shortest_path w h wk.position (picking_station w h)).toOption <;> rfl

theorem plan_path_some {w h : Nat} {wk : Worker} {os : List Order} {oi : Nat} {o : Order}
    (hcur : wk.current_order = some oi) (ho : os.get? oi = some o) :
    plan_path_to_next_item w h wk os =
      (planFromItems w h wk.position o.items).map
        (fun r =>
          ({ wk with
              path := r.1, path_index := 0,
              activity_log := wk.activity_log ++ r.2.2 },
           os.set oi { o with items := r.2.1 })) := by
  unfold plan_path_to_next_item
  nth_rewrite 1 [hcur]
  show (do
    let o ← os.get? oi
    let r ← planFromItems w h wk.position o.items
    some ({ wk with
              path := r.1, path_index := 0,
              activity_log := wk.activity_log ++ r.2.2 },
          os.set oi { o with items := r.2.1 })) = _
  rw [ho]
  simp only [Option.bind_eq_bind, Option.some_bind]
  cases hpf : planFromItems w h wk.position o.items with
  | none => rfl
  | some r => rfl

theorem plan_path_miss {w h : Nat} {wk : Worker} {os : List Order} {oi : Nat}
    (hcur : wk.current_order = some oi) (ho : os.get? oi = none) :
    plan_path_to_next_item w h wk os = none := by
  unfold plan_path_to_next_item
  nth_rewrite 1 [hcur]
  show (do
    let o ← os.get? oi
    let r ← planFromItems w h wk.position o.items
    some ({ wk with
              path := r.1, path_index := 0,
              activity_log := wk.activity_log ++ r.2.2 },
          os.set oi { o with items := r.2.1 })) = _
  rw [ho]
  rfl

theorem plan_fields {w h : Nat} {wk wk' : Worker} {os os' : List Order}
    (hp : plan_path_to_next_item w h wk os = some (wk', os')) :
    wk'.position = wk.position ∧ wk'.total_distance = wk.total_distance ∧
    wk'.worker_id = wk.worker_id ∧ wk'.is_busy = wk.is_busy ∧
    wk'.current_order = wk.current_order ∧
    wk'.total_items_picked = wk.total_items_picked ∧
    wk'.movement_history = wk.movement_history ∧
    wk'.picked_items = wk.picked_items ∧ wk'.path_index = 0 := by
  cases hcur : wk.current_order with
  | none =>
    rw [plan_path_none hcur] at hp
    cases hfp : (find_shortest_path w h wk.position (picking_station w h)).toOption with
    | none => rw [hfp] at hp; cases hp
    | some p =>
      rw [hfp] at hp
      simp only [Option.map_some', Option.some.injEq, Prod.mk.injEq] at hp
      obtain ⟨hwk, -⟩ := hp
      rw [← hwk]
      simp [hcur]
  | some oi =>
    cases hgo : os.get? oi with
    | none => rw [plan_path_miss hcur hgo] at hp; cases hp
    | some o =>
      rw [plan_path_some hcur hgo] at hp
      cases hpf : planFromItems w h wk.position o.items with
      | none => rw [hpf] at hp; cases hp
      | some r =>
        rw [hpf] at hp
        simp only [Option.map_some', Option.some.injEq, Prod.mk.injEq] at hp
        obtain ⟨hwk, -⟩ := hp
        rw [← hwk]
        simp [hcur]

/-- C8: when the next backlog item has no storage location, planning drops the
item, logs the anomaly and immediately re-plans for the rest of the backlog
(conjunct 2 is the exact recursion: the plan on the original order equals the
plan on the order with the item already dropped, plus the anomaly entry spliced
into the activity log right after the old log); and planning never changes the
worker's position or total_distance (the simulation clock lives in the
simulator and is not touched by planning at all). -/
theorem C8_unknown_item_skip (w h : Nat) (wk : Worker) (orders : List Order) (oi : Nat)
    (o : Order) (item : Nat) (rest : List Nat)
    (hcur : wk.current_order = some oi) (ho : orders.get? oi = some o)
    (hitems : o.items = item :: rest) (hmiss : storage_location w h item = none) :
    (planFromItems w h wk.position o.items
      = (planFromItems w h wk.position rest).map
          (fun r => (r.1, r.2.1, LogMsg.itemNotFound item :: r.2.2))) ∧
    (∀ wk2 os2,
        plan_path_to_next_item w h wk (orders.set oi { o with items := rest })
          = some (wk2, os2) →
        plan_path_to_next_item w h wk orders
          = some ({ wk2 with activity_log := wk.activity_log ++
              LogMsg.itemNotFound item :: wk2.activity_log.drop wk.activity_log.length },
              os2)) ∧
    (∀ wk' os', plan_path_to_next_item w h wk orders = some (wk', os') →
        wk'.position = wk.position ∧ wk'.total_distance = wk.total_distance) := by
  have hlt : oi < orders.length := List.get?_eq_some.mp ho |>.1
  have heq1 : planFromItems w h wk.position o.items
      = (planFromItems w h wk.position rest).map
          (fun r => (r.1, r.2.1, LogMsg.itemNotFound item :: r.2.2)) := by
    rw [hitems]
    exact planFromItems_unknown hmiss
  refine ⟨heq1, ?_, ?_⟩
  · intro wk2 os2 hp2
    have hgo2 : (orders.set oi { o with items := rest }).get? oi
        = some { o with items := rest } := by
      rw [List.get?_eq_getElem?]
      exact List.getElem?_set_eq_of_lt _ hlt
    rw [plan_path_some hcur hgo2] at hp2
    rw [plan_path_some hcur ho, heq1]
    cases hpf : planFromItems w h wk.position rest with
    | none => rw [hpf] at hp2; cases hp2
    | some r =>
      obtain ⟨p, its, logs⟩ := r
      rw [hpf] at hp2
      simp only [Option.map_some', Option.some.injEq, Prod.mk.injEq] at hp2
      obtain ⟨hwk2, hos2⟩ := hp2
      simp only [Option.map_some', Option.some.injEq, Prod.mk.injEq]
      constructor
      · rw [← hwk2]
        simp [List.drop_left]
      · rw [← hos2, List.set_set]
  · intro wk' os' hp
    have hf := plan_fields hp
    exact ⟨hf.1, hf.2.1⟩

/-- C8 witness: the theorem applied to a busy worker on the 5x5 map holding an
order whose first item 999 is unknown. -/
theorem C8_unknown_item_skip_witness :
    (c8Worker.current_order = some 0 ∧ [c8Order].get? 0 = some c8Order ∧
     c8Order.items = 999 :: [1] ∧ storage_location 5 5 999 = none) ∧
    ((planFromItems 5 5 c8Worker.position c8Order.items
      = (planFromItems 5 5 c8Worker.position [1]).map
          (fun r => (r.1, r.2.1, LogMsg.itemNotFound 999 :: r.2.2))) ∧
    (∀ wk2 os2,
        plan_path_to_next_item 5 5 c8Worker ([c8Order].set 0 { c8Order with items := [1] })
          = some (wk2, os2) →
        plan_path_to_next_item 5 5 c8Worker [c8Order]
          = some ({ wk2 with activity_log := c8Worker.activity_log ++
              LogMsg.itemNotFound 999 :: wk2.activity_log.drop c8Worker.activity_log.length },
              os2)) ∧
    (∀ wk' os', plan_path_to_next_item 5 5 c8Worker [c8Order] = some (wk', os') →
        wk'.position = c8Worker.position ∧ wk'.total_distance = c8Worker.total_distance)) :=
  ⟨⟨rfl, rfl, rfl, by decide⟩,
   C8_unknown_item_skip 5 5 c8Worker [c8Order] 0 c8Order 999 [1] rfl rfl rfl (by decide)⟩

theorem mem_insertSorted {key : Nat → Nat} {l : List Nat} {x z : Nat} :
    z ∈ insertSorted key l x ↔ z ∈ l ∨ z = x := by
  induction l with
  | nil => simp [insertSorted]
  | cons y ys ih =>
    unfold insertSorted
    by_cases hxy : key y ≤ key x
    · rw [if_pos hxy]
      simp only [List.mem_cons, ih]
      tauto
    · rw [if_neg hxy]
      simp only [List.mem_cons]
      tauto

theorem insertSorted_sorted {key : Nat → Nat} {l : List Nat} (x : Nat)
    (hs : List.Sorted (fun a b => key a ≤ key b) l) :
    List.Sorted (fun a b => key a ≤ key b) (insertSorted key l x) := by
  induction l with
  | nil => simp [insertSorted]
  | cons y ys ih =>
    rw [List.sorted_cons] at hs
    obtain ⟨hy, hys⟩ := hs
    unfold insertSorted
    by_cases hxy : key y ≤ key x
    · rw [if_pos hxy, List.sorted_cons]
      refine ⟨?_, ih hys⟩
      intro z hz
      rcases mem_insertSorted.mp hz with hz1 | hz1
      · exact hy z hz1
      · rw [hz1]; exact hxy
    · rw [if_neg hxy, List.sorted_cons]
      refine ⟨?_, List.sorted_cons.mpr ⟨hy, hys⟩⟩
      intro z hz
      rcases List.mem_cons.mp hz with hz1 | hz1
      · rw [hz1]; omega
      · have := hy z hz1; omega

theorem foldl_insertSorted_sorted (key : Nat → Nat) :
    ∀ (l acc : List Nat), List.Sorted (fun a b => key a ≤ key b) acc →
      List.Sorted (fun a b => key a ≤ key b) (l.foldl (insertSorted key) acc) := by
  intro l
  induction l with
  | nil => intro acc h; exact h
  | cons x xs ih => intro acc h; exact ih _ (insertSorted_sorted x h)

theorem sortStable_sorted (key : Nat → Nat) (l : List Nat) :
    List.Sorted (fun a b => key a ≤ key b) (sortStable key l) :=
  foldl_insertSorted_sorted key l [] (by simp)

theorem filter_insertSorted_eq {key : Nat → Nat} {l : List Nat} {x p : Nat}
    (hs : List.Sorted (fun a b => key a ≤ key b) l) (hx : key x = p) :
    (insertSorted key l x).filter (fun i => key i == p)
      = l.filter (fun i => key i == p) ++ [x] := by
  induction l with
  | nil => simp [insertSorted, hx]
  | cons y ys ih =>
    rw [List.sorted_cons] at hs
    obtain ⟨hy, hys⟩ := hs
    unfold insertSorted
    by_cases hxy : key y ≤ key x
    · rw [if_pos hxy]
      by_cases hyp : key y = p
      · simp only [List.filter_cons, hyp, beq_self_eq_true, if_pos]
        rw [ih hys]
        simp
      · simp only [List.filter_cons]
        rw [if_neg (by simpa using hyp), if_neg (by simpa using hyp), ih hys]
    · rw [if_neg hxy]
      have hnil : (y :: ys).filter (fun i => key i == p) = [] := by
        rw [List.filter_eq_nil_iff]
        intro z hz
        rcases List.mem_cons.mp hz with hz1 | hz1
        · subst hz1; simp; omega
        · have := hy z hz1; simp; omega
      rw [hnil]
      simp only [List.filter_cons, List.nil_append]
      rw [if_pos (by simpa using hx)]
      simp only [List.filter_cons] at hnil
      rw [hnil]

theorem filter_insertSorted_ne {key : Nat → Nat} {l : List Nat} {x p : Nat}
    (hx : key x ≠ p) :
    (insertSorted key l x).filter (fun i => key i == p)
      = l.filter (fun i => key i == p) := by
  induction l with
  | nil => simp [insertSorted, hx]
  | cons y ys ih =>
    unfold insertSorted
    by_cases hxy : key y ≤ key x
    · rw [if_pos hxy]
      simp only [List.filter_cons, ih]
    · rw [if_neg hxy]
      simp only [List.filter_cons]
      rw [if_neg (by simpa using hx)]

theorem filter_foldl_insertSorted (key : Nat → Nat) (p : Nat) :
    ∀ (l acc : List Nat), List.Sorted (fun a b => key a ≤ key b) acc →
      (l.foldl (insertSorted key) acc).filter (fun i => key i == p)
        = acc.filter (fun i => key i == p) ++ l.filter (fun i => key i == p) := by
  intro l
  induction l with
  | nil => intro acc _; simp
  | cons x xs ih =>
    intro acc hacc
    show (xs.foldl (insertSorted key) (insertSorted key acc x)).filter (fun i => key i == p) = _
    rw [ih _ (insertSorted_sorted x hacc)]
    by_cases hx : key x = p
    · rw [filter_insertSorted_eq hacc hx]
      simp [List.filter_cons, hx]
    · rw [filter_insertSorted_ne hx]
      simp [List.filter_cons, hx]

theorem sortStable_filter (key : Nat → Nat) (l : List Nat) (p : Nat) :
    (sortStable key l).filter (fun i => key i == p) = l.filter (fun i => key i == p) := by
  have := filter_foldl_insertSorted key p l [] (by simp)
  simpa [sortStable] using this

theorem plan_orders_shape {w h : Nat} {wk wk' : Worker} {os os' : List Order} {oi : Nat}
    {o : Order} (hcur : wk.current_order = some oi) (ho : os.get? oi = some o)
    (hp : plan_path_to_next_item w h wk os = some (wk', os')) :
    ∃ its, os' = os.set oi { o with items := its } := by
  rw [plan_path_some hcur ho] at hp
  cases hpf : planFromItems w h wk.position o.items with
  | none => rw [hpf] at hp; cases hp
  | some r =>
    rw [hpf] at hp
    simp only [Option.map_some', Option.some.injEq, Prod.mk.injEq] at hp
    exact ⟨r.2.1, hp.2.symm⟩

theorem assign_order_spec {w h : Nat} {wk wk' : Worker} {oi : Nat} {os os' : List Order}
    (ha : assign_order w h wk oi os = some (wk', os')) :
    ∃ o its, os.get? oi = some o ∧
      wk'.worker_id = wk.worker_id ∧ wk'.is_busy = true ∧ wk'.current_order = some oi ∧
      wk'.position = wk.position ∧ wk'.total_distance = wk.total_distance ∧
      wk'.total_items_picked = wk.total_items_picked ∧
      wk'.movement_history = wk.movement_history ∧ wk'.path_index = 0 ∧
      os' = os.set oi
        { o with items := its, assigned_worker := some wk.worker_id } := by
  unfold assign_order at ha
  cases hgo : os.get? oi with
  | none => rw [hgo] at ha; cases ha
  | some o =>
    rw [hgo] at ha
    simp only [Option.bind_eq_bind, Option.some_bind] at ha
    have hlt : oi < os.length := List.get?_eq_some.mp hgo |>.1
    have hgo1 : (os.set oi { o with assigned_worker := some wk.worker_id }).get? oi
        = some { o with assigned_worker := some wk.worker_id } := by
      rw [List.get?_eq_getElem?]
      exact List.getElem?_set_eq_of_lt _ hlt
    obtain ⟨its, hits⟩ := plan_orders_shape rfl hgo1 ha
    have hf := plan_fields ha
    refine ⟨o, its, rfl, ?_⟩
    rw [hits, List.set_set]
    refine ⟨hf.2.2.1, ?_, ?_, hf.1, hf.2.1, hf.2.2.2.2.2.1, hf.2.2.2.2.2.2.1,
      hf.2.2.2.2.2.2.2.2, rfl⟩
    · rw [hf.2.2.2.1]
    · rw [hf.2.2.2.2.1]

theorem assignLoop_nil (w h : Nat) (ws : List Worker) (os : List Order)
    (pend : List Nat) : assignLoop w h [] ws os pend = some (ws, os, pend) := rfl

theorem assignLoop_cons_idle {w h : Nat} {oi : Nat} {rest : List Nat} {ws : List Worker}
    {os : List Order} {pend : List Nat} {wi : Nat}
    (hf : ws.findIdx? (fun wk => !wk.is_busy) = some wi) :
    assignLoop w h (oi :: rest) ws os pend = (do
      let wk ← ws.get? wi
      let (wk2, os2) ← assign_order w h wk oi os
      assignLoop w h rest (ws.set wi wk2) os2 pend) := by
  conv_lhs => unfold assignLoop
  rw [hf]

/-- C7: pending orders are stably sorted ascending by priority (first two
conjuncts: the sort is sorted and leaves the per-priority subsequences
untouched, which together pin down Python's stable list.sort), and each order
is assigned to the first idle worker in worker-list order, which is the
lowest-id idle worker since the simulator creates workers with ascending ids;
in the two-idle-workers scenario the high-priority order lands on the first
worker u, the low-priority one on v, and pending empties. -/
theorem C7_assignment (w h : Nat) (orders : List Order) (pending : List Nat)
    (u v : Worker) (iHi iLo : Nat) (ws' : List Worker) (orders' : List Order)
    (pend' : List Nat)
    (_hid : u.worker_id < v.worker_id)
    (hu : u.is_busy = false) (hv : v.is_busy = false)
    (hpend : pending = [iHi, iLo] ∨ pending = [iLo, iHi]) (hne : iHi ≠ iLo)
    (hprio : priorityOf orders iHi < priorityOf orders iLo)
    (hrun : assign_orders w h [u, v] orders pending = some (ws', orders', pend')) :
    (∀ (key : Nat → Nat) (l : List Nat),
        List.Sorted (fun a b => key a ≤ key b) (sortStable key l)) ∧
    (∀ (key : Nat → Nat) (l : List Nat) (p : Nat),
        (sortStable key l).filter (fun i => key i == p) = l.filter (fun i => key i == p)) ∧
    sortStable (priorityOf orders) pending = [iHi, iLo] ∧
    pend' = [] ∧
    (orders'.get? iHi).map Order.assigned_worker = some (some u.worker_id) ∧
    (orders'.get? iLo).map Order.assigned_worker = some (some v.worker_id) := by
  have hsort : sortStable (priorityOf orders) pending = [iHi, iLo] := by
    rcases hpend with hp1 | hp1 <;> subst hp1
    · simp [sortStable, insertSorted, Nat.le_of_lt hprio]
    · simp [sortStable, insertSorted, (show ¬ priorityOf orders iLo ≤ priorityOf orders iHi by omega)]
  unfold assign_orders at hrun
  rw [hsort] at hrun
  have hf1 : [u, v].findIdx? (fun wk => !wk.is_busy) = some 0 := by
    rw [List.findIdx?_cons]
    simp [hu]
  rw [assignLoop_cons_idle hf1] at hrun
  simp only [List.get?, Option.bind_eq_bind, Option.some_bind] at hrun
  cases hao1 : assign_order w h u iHi orders with
  | none => rw [hao1] at hrun; cases hrun
  | some r1 =>
    obtain ⟨u2, os1⟩ := r1
    rw [hao1] at hrun
    simp only [Option.some_bind] at hrun
    obtain ⟨oHi, its1, hgoHi, -, hbusy1, -, -, -, -, -, -, hos1⟩ := assign_order_spec hao1
    have hset0 : ([u, v].set 0 u2) = [u2, v] := rfl
    rw [hset0] at hrun
    have hf2 : [u2, v].findIdx? (fun wk => !wk.is_busy) = some 1 := by
      rw [List.findIdx?_cons]
      simp [hbusy1, List.findIdx?_cons, hv]
    rw [assignLoop_cons_idle hf2] at hrun
    simp only [List.get?, Option.bind_eq_bind, Option.some_bind] at hrun
    cases hao2 : assign_order w h v iLo os1 with
    | none => rw [hao2] at hrun; cases hrun
    | some r2 =>
      obtain ⟨v2, os2⟩ := r2
      rw [hao2] at hrun
      simp only [Option.some_bind, assignLoop_nil, Option.some.injEq, Prod.mk.injEq] at hrun
      obtain ⟨-, hords, hpend'⟩ := hrun
      obtain ⟨oLo, its2, hgoLo, -, -, -, -, -, -, -, -, hos2⟩ := assign_order_spec hao2
      have hltHi : iHi < orders.length := List.get?_eq_some.mp hgoHi |>.1
      have hltLo : iLo < os1.length := List.get?_eq_some.mp hgoLo |>.1
      refine ⟨fun key l => sortStable_sorted key l, fun key l p => sortStable_filter key l p,
        hsort, hpend'.symm, ?_, ?_⟩
      · rw [← hords, hos2]
        rw [List.get?_eq_getElem?, List.getElem?_set_ne (by omega), ← List.get?_eq_getElem?]
        rw [hos1, List.get?_eq_getElem?]
        rw [List.getElem?_set_eq_of_lt _ hltHi]
        rfl
      · rw [← hords, hos2, List.get?_eq_getElem?]
        rw [List.getElem?_set_eq_of_lt _ hltLo]
        rfl

/-- C7 witness: the theorem applied to the concrete two-worker scenario on the
5x5 map, with the high-priority order at pending position 2. -/
theorem C7_assignment_witness :
    c7u.worker_id < c7v.worker_id ∧ c7u.is_busy = false ∧ c7v.is_busy = false ∧
    (([0, 1] : List Nat) = [1, 0] ∨ ([0, 1] : List Nat) = [0, 1]) ∧ (1 : Nat) ≠ 0 ∧
    priorityOf c7orders 1 < priorityOf c7orders 0 ∧
    ∃ ws' orders' pend',
      assign_orders 5 5 [c7u, c7v] c7orders [0, 1] = some (ws', orders', pend') ∧
      ((∀ (key : Nat → Nat) (l : List Nat),
          List.Sorted (fun a b => key a ≤ key b) (sortStable key l)) ∧
       (∀ (key : Nat → Nat) (l : List Nat) (p : Nat),
          (sortStable key l).filter (fun i => key i == p) = l.filter (fun i => key i == p)) ∧
       sortStable (priorityOf c7orders) [0, 1] = [1, 0] ∧
       pend' = [] ∧
       (orders'.get? 1).map Order.assigned_worker = some (some c7u.worker_id) ∧
       (orders'.get? 0).map Order.assigned_worker = some (some c7v.worker_id)) := by
  refine ⟨by decide, rfl, rfl, Or.inr rfl, by decide, by decide, ?_⟩
  cases hres : assign_orders 5 5 [c7u, c7v] c7orders [0, 1] with
  | none => exact absurd hres (by decide)
  | some r =>
    refine ⟨r.1, r.2.1, r.2.2, rfl, ?_⟩
    exact C7_assignment 5 5 c7orders [0, 1] c7u c7v 1 0 r.1 r.2.1 r.2.2 (by decide) rfl rfl
      (Or.inr rfl) (by decide) (by decide) (hres.trans rfl)

theorem plan_orders_other {w h : Nat} {wk wk' : Worker} {os os' : List Order}
    (hp : plan_path_to_next_item w h wk os = some (wk', os'))
    (j : Nat) (hj : wk.current_order ≠ some j) : os'.get? j = os.get? j := by
  cases hcur : wk.current_order with
  | none =>
    rw [plan_path_none hcur] at hp
    cases hfp : (find_shortest_path w h wk.position (picking_station w h)).toOption with
    | none => rw [hfp] at hp; cases hp
    | some p =>
      rw [hfp] at hp
      simp only [Option.map_some', Option.some.injEq, Prod.mk.injEq] at hp
      rw [← hp.2]
  | some oi =>
    have hne : j ≠ oi := by intro hc; rw [hc] at hj; exact hj hcur
    cases hgo : os.get? oi with
    | none => rw [plan_path_miss hcur hgo] at hp; cases hp
    | some o =>
      obtain ⟨its, hits⟩ := plan_orders_shape hcur hgo hp
      rw [hits, List.get?_eq_getElem?, List.getElem?_set_ne (by omega), List.get?_eq_getElem?]

theorem plan_orders_length {w h : Nat} {wk wk' : Worker} {os os' : List Order}
    (hp : plan_path_to_next_item w h wk os = some (wk', os')) :
    os'.length = os.length := by
  cases hcur : wk.current_order with
  | none =>
    rw [plan_path_none hcur] at hp
    cases hfp : (find_shortest_path w h wk.position (picking_station w h)).toOption with
    | none => rw [hfp] at hp; cases hp
    | some p =>
      rw [hfp] at hp
      simp only [Option.map_some', Option.some.injEq, Prod.mk.injEq] at hp
      rw [← hp.2]
  | some oi =>
    cases hgo : os.get? oi with
    | none => rw [plan_path_miss hcur hgo] at hp; cases hp
    | some o =>
      obtain ⟨its, hits⟩ := plan_orders_shape hcur hgo hp
      rw [hits, List.length_set]

theorem move_spec {w h : Nat} {t : Rat} {wk wk' : Worker} {os os' : List Order} {b : Bool}
    (hm : Worker.move w h t wk os = some (wk', os', b)) :
    wk'.worker_id = wk.worker_id ∧
    os'.length = os.length ∧
    (∀ j, wk.current_order ≠ some j → os'.get? j = os.get? j) ∧
    (wk'.current_order = wk.current_order ∨ wk'.current_order = none) := by
  unfold Worker.move at hm
  split at hm
  · cases hm
    exact ⟨rfl, rfl, fun j _ => rfl, Or.inl rfl⟩
  · simp only [Option.bind_eq_bind, Option.bind_eq_some] at hm
    obtain ⟨next, hnx, hm⟩ := hm
    split at hm
    · cases hm
      exact ⟨rfl, rfl, fun j _ => rfl, Or.inl rfl⟩
    · split at hm
      case isFalse.intro.intro.isFalse.h_1 oi hcur =>
        rw [Option.bind_eq_some] at hm
        obtain ⟨o, hgo, hm⟩ := hm
        split at hm
        case h_1 item rest hitems =>
          rw [Option.bind_eq_some] at hm
          obtain ⟨r, hpl, hm⟩ := hm
          obtain ⟨wk2, os2⟩ := r
          cases hm
          have hf := plan_fields hpl
          have hlen := plan_orders_length hpl
          refine ⟨by rw [hf.2.2.1], by rw [hlen, List.length_set], ?_, ?_⟩
          · intro j hj
            have hne : j ≠ oi := by intro hc; rw [hc] at hj; exact hj hcur
            have h1 := plan_orders_other hpl j (by
              intro hc
              have hc' : wk.current_order = some j := hc
              rw [hcur] at hc'
              simp only [Option.some.injEq] at hc'
              exact hne hc'.symm)
            rw [h1, List.get?_eq_getElem?, List.getElem?_set_ne (by omega),
              List.get?_eq_getElem?]
          · rw [hf.2.2.2.2.1]
            exact Or.inl rfl
        case h_2 hitems =>
          split at hm
          · cases hm
            refine ⟨rfl, by rw [List.length_set], ?_, Or.inr rfl⟩
            intro j hj
            have hne : j ≠ oi := by intro hc; rw [hc] at hj; exact hj hcur
            rw [List.get?_eq_getElem?, List.getElem?_set_ne (by omega), List.get?_eq_getElem?]
          · cases hm
            exact ⟨rfl, rfl, fun j _ => rfl, Or.inl (by rw [hcur])⟩
      case isFalse.intro.intro.isFalse.h_2 hcur =>
        cases hm
        exact ⟨rfl, rfl, fun j _ => rfl, Or.inl rfl⟩

theorem assignLoop_cons_none {w h : Nat} {oi : Nat} {rest : List Nat} {ws : List Worker}
    {os : List Order} {pend : List Nat}
    (hf : ws.findIdx? (fun wk => !wk.is_busy) = none) :
    assignLoop w h (oi :: rest) ws os pend = assignLoop w h rest ws os (pend ++ [oi]) := by
  conv_lhs => unfold assignLoop
  rw [hf]

theorem mem_foldl_insertSorted {key : Nat → Nat} {x : Nat} :
    ∀ (l acc : List Nat), x ∈ l.foldl (insertSorted key) acc ↔ x ∈ acc ∨ x ∈ l := by
  intro l
  induction l with
  | nil => intro acc; simp
  | cons y ys ih =>
    intro acc
    show x ∈ ys.foldl (insertSorted key) (insertSorted key acc y) ↔ _
    rw [ih, mem_insertSorted]
    simp only [List.mem_cons]
    tauto

theorem mem_sortStable {key : Nat → Nat} {l : List Nat} {x : Nat} :
    x ∈ sortStable key l ↔ x ∈ l := by
  rw [sortStable, mem_foldl_insertSorted]
  simp

theorem moveOne_orphan {w h : Nat} {t : Rat} {acc acc' : List Worker × List Order × List Nat}
    {k i : Nat}
    (hmo : moveOne w h t acc k = some acc')
    (hws : ∀ wk ∈ acc.1, wk.current_order ≠ some i) :
    acc'.2.1.get? i = acc.2.1.get? i ∧ (∀ wk ∈ acc'.1, wk.current_order ≠ some i) := by
  obtain ⟨ws, os, comp⟩ := acc
  unfold moveOne at hmo
  simp only [Option.bind_eq_bind, Option.bind_eq_some] at hmo
  obtain ⟨wk, hget, hmo⟩ := hmo
  have hwkmem : wk ∈ ws := List.get?_mem hget
  split at hmo
  · rw [Option.bind_eq_some] at hmo
    obtain ⟨r, hmv, hmo⟩ := hmo
    obtain ⟨wk2, os2, b2⟩ := r
    cases hmo
    obtain ⟨-, -, hother, hcur2⟩ := move_spec hmv
    refine ⟨hother i (hws wk hwkmem), ?_⟩
    intro wk3 hwk3
    rcases List.mem_or_eq_of_mem_set hwk3 with hmem | heq
    · exact hws wk3 hmem
    · rw [heq]
      rcases hcur2 with hsame | hnone
      · rw [hsame]; exact hws wk hwkmem
      · rw [hnone]; simp
  · cases hmo
    exact ⟨rfl, hws⟩

theorem foldl_moveOne_orphan {w h : Nat} {t : Rat} {i : Nat} :
    ∀ (ks : List Nat) (acc acc' : List Worker × List Order × List Nat),
      ks.foldlM (moveOne w h t) acc = some acc' →
      (∀ wk ∈ acc.1, wk.current_order ≠ some i) →
      acc'.2.1.get? i = acc.2.1.get? i ∧ (∀ wk ∈ acc'.1, wk.current_order ≠ some i) := by
  intro ks
  induction ks with
  | nil =>
    intro acc acc' hf hws
    simp only [List.foldlM_nil] at hf
    cases hf
    exact ⟨rfl, hws⟩
  | cons k ks ih =>
    intro acc acc' hf hws
    rw [List.foldlM_cons, Option.bind_eq_bind, Option.bind_eq_some] at hf
    obtain ⟨acc1, hmo, hf⟩ := hf
    obtain ⟨he, hmem⟩ := moveOne_orphan hmo hws
    obtain ⟨he2, hmem2⟩ := ih acc1 acc' hf hmem
    exact ⟨he2.trans he, hmem2⟩

theorem assignLoop_orphan {w h : Nat} {i : Nat} :
    ∀ (lst : List Nat) (ws ws' : List Worker) (os os' : List Order) (pend pend' : List Nat),
      assignLoop w h lst ws os pend = some (ws', os', pend') →
      i ∉ lst → (∀ wk ∈ ws, wk.current_order ≠ some i) → i ∉ pend →
      os'.get? i = os.get? i ∧ (∀ wk ∈ ws', wk.current_order ≠ some i) ∧ i ∉ pend' := by
  intro lst
  induction lst with
  | nil =>
    intro ws ws' os os' pend pend' hrun _ hws hnp
    rw [assignLoop_nil] at hrun
    cases hrun
    exact ⟨rfl, hws, hnp⟩
  | cons oi rest ih =>
    intro ws ws' os os' pend pend' hrun hni hws hnp
    have hne : i ≠ oi := fun hc => hni (by rw [hc]; exact List.mem_cons_self oi rest)
    have hnr : i ∉ rest := fun hc => hni (List.mem_cons_of_mem oi hc)
    cases hf : ws.findIdx? (fun wk => !wk.is_busy) with
    | none =>
      rw [assignLoop_cons_none hf] at hrun
      exact ih ws ws' os os' (pend ++ [oi]) pend' hrun hnr hws
        (by simp [hnp, hne])
    | some wi =>
      rw [assignLoop_cons_idle hf] at hrun
      simp only [Option.bind_eq_bind, Option.bind_eq_some] at hrun
      obtain ⟨wk, hget, hrun⟩ := hrun
      obtain ⟨r, hao, hrun⟩ := hrun
      obtain ⟨wk2, os2⟩ := r
      obtain ⟨o, its, hgo, -, -, hcur2, -, -, -, -, -, hos2⟩ := assign_order_spec hao
      obtain ⟨he, hmem, hpd⟩ := ih (ws.set wi wk2) ws' os2 os' pend pend' hrun hnr
        (by
          intro wk3 hwk3
          rcases List.mem_or_eq_of_mem_set hwk3 with hmem | heq
          · exact hws wk3 hmem
          · rw [heq, hcur2]
            intro hc
            simp only [Option.some.injEq] at hc
            exact hne hc.symm)
        hnp
      refine ⟨?_, hmem, hpd⟩
      rw [he, hos2, List.get?_eq_getElem?, List.getElem?_set_ne (by omega),
        List.get?_eq_getElem?]

theorem update_orphan {wallNow : Rat} {s s' : SimState} {i : Nat}
    (horph : Orphaned i s) (hu : update wallNow s = some s') :
    Orphaned i s' ∧ s'.orders.get? i = s.orders.get? i := by
  obtain ⟨hpend, hws⟩ := horph
  unfold update at hu
  simp only [Option.bind_eq_bind, Option.bind_eq_some] at hu
  obtain ⟨r1, hmp, hu⟩ := hu
  obtain ⟨ws1, os1, comp1⟩ := r1
  obtain ⟨r2, has, hu⟩ := hu
  obtain ⟨ws2, os2, pend2⟩ := r2
  cases hu
  obtain ⟨he1, hmem1⟩ := foldl_moveOne_orphan (List.range s.workers.length)
    (s.workers, s.orders, s.completed_orders) (ws1, os1, comp1) hmp hws
  have hsortmem : i ∉ sortStable (priorityOf os1) s.pending_orders := by
    rw [mem_sortStable]; exact hpend
  obtain ⟨he2, hmem2, hpd2⟩ := assignLoop_orphan
    (sortStable (priorityOf os1) s.pending_orders) ws1 ws2 os1 os2 [] pend2 has
    hsortmem hmem1 (by simp)
  refine ⟨⟨hpd2, hmem2⟩, ?_⟩
  show os2.get? i = s.orders.get? i
  rw [he2, he1]

theorem iterUpdate_orphan {wall : Nat → Rat} {i : Nat} :
    ∀ {n : Nat} {s s' : SimState}, Orphaned i s → iterUpdate wall n s = some s' →
      s'.orders.get? i = s.orders.get? i ∧ Orphaned i s' := by
  intro n
  induction n with
  | zero =>
    intro s s' ho hit
    cases hit
    exact ⟨rfl, ho⟩
  | succ n ih =>
    intro s s' ho hit
    unfold iterUpdate at hit
    rw [Option.bind_eq_bind, Option.bind_eq_some] at hit
    obtain ⟨s1, hu, hit⟩ := hit
    obtain ⟨ho1, he1⟩ := update_orphan ho hu
    obtain ⟨he2, ho2⟩ := ih ho1 hit
    exact ⟨he2.trans he1, ho2⟩

theorem sum_filter_map_eq (p : Nat → Bool) (f g : Nat → Nat)
    (hg : ∀ i, g i = if p i then f i else 0) :
    ∀ L : List Nat, ((L.filter p).map f).sum = (L.map g).sum := by
  intro L
  induction L with
  | nil => rfl
  | cons j L ih =>
    cases hp : p j with
    | true => simp [List.filter_cons, hp, hg j, ih]
    | false => simp [List.filter_cons, hp, hg j, ih]

theorem assignedBacklogSum_eq (os : List Order) : assignedBacklogSum os = backlogSumI os := by
  unfold assignedBacklogSum backlogSumI assignedIdxs
  apply sum_filter_map_eq
  intro i
  cases hgo : os.get? i with
  | none => simp [hgo]
  | some o => cases ha : o.assigned_worker.isSome <;> simp [hgo, ha]

theorem assignedOrigSum_eq (orig : Nat → Nat) (os : List Order) :
    assignedOrigSum orig os = origSumI orig os :=
  sum_filter_map_eq _ orig _ (fun _ => rfl) _

theorem sum_map_set_get {α : Type} (f : α → Nat) :
    ∀ (l : List α) (i : Nat) (x x' : α), l.get? i = some x →
      ((l.set i x').map f).sum + f x = (l.map f).sum + f x' := by
  intro l
  induction l with
  | nil => intro i x x' h; simp at h
  | cons y l ih =>
    intro i x x' h
    cases i with
    | zero =>
      rw [List.get?_cons_zero] at h
      injection h with h
      subst h
      simp only [List.set, List.map, List.sum_cons]
      omega
    | succ i =>
      rw [List.get?_cons_succ] at h
      have := ih i x x' h
      simp only [List.set, List.map, List.sum_cons]
      omega

theorem totalPicked_set {ws : List Worker} {k : Nat} {wk wk2 : Worker}
    (hget : ws.get? k = some wk) :
    totalPicked (ws.set k wk2) + wk.total_items_picked
      = totalPicked ws + wk2.total_items_picked :=
  sum_map_set_get Worker.total_items_picked ws k wk wk2 hget

theorem sum_map_point (g g' : Nat → Nat) (oi : Nat) :
    ∀ L : List Nat, L.Nodup → oi ∈ L → (∀ j ∈ L, j ≠ oi → g' j = g j) →
      (L.map g').sum + g oi = (L.map g).sum + g' oi := by
  intro L
  induction L with
  | nil => intro _ hmem; cases hmem
  | cons j L ih =>
    intro hnd hmem hagree
    rcases List.mem_cons.mp hmem with heq | hmem'
    · subst heq
      have hni : oi ∉ L := (List.nodup_cons.mp hnd).1
      have hmapeq : L.map g' = L.map g := by
        apply List.map_congr_left
        intro a ha
        exact hagree a (List.mem_cons_of_mem _ ha) (fun hc => hni (hc ▸ ha))
      simp only [List.map, List.sum_cons, hmapeq]
      omega
    · have hne : j ≠ oi := by
        intro hc; subst hc; exact (List.nodup_cons.mp hnd).1 hmem'
      have hgj : g' j = g j := hagree j (List.mem_cons_self _ _) hne
      have := ih (List.nodup_cons.mp hnd).2 hmem'
        (fun a ha hne2 => hagree a (List.mem_cons_of_mem _ ha) hne2)
      simp only [List.map, List.sum_cons, hgj]
      omega

theorem backlogSumI_set {os : List Order} {oi : Nat} {o o' : Order}
    (hgo : os.get? oi = some o) :
    backlogSumI (os.set oi o') + (if o.assigned_worker.isSome then o.items.length else 0)
      = backlogSumI os + (if o'.assigned_worker.isSome then o'.items.length else 0) := by
  have hlt : oi < os.length := (List.get?_eq_some.mp hgo).1
  have hg : ((os.get? oi).map fun o =>
      if o.assigned_worker.isSome then o.items.length else 0).getD 0
      = if o.assigned_worker.isSome then o.items.length else 0 := by
    rw [hgo, Option.map_some', Option.getD_some]
  have hg' : (((os.set oi o').get? oi).map fun o =>
      if o.assigned_worker.isSome then o.items.length else 0).getD 0
      = if o'.assigned_worker.isSome then o'.items.length else 0 := by
    rw [List.get?_eq_getElem?, List.getElem?_set_eq_of_lt _ hlt, Option.map_some',
      Option.getD_some]
  have key := sum_map_point
    (fun i => ((os.get? i).map fun o =>
      if o.assigned_worker.isSome then o.items.length else 0).getD 0)
    (fun i => (((os.set oi o').get? i).map fun o =>
      if o.assigned_worker.isSome then o.items.length else 0).getD 0)
    oi (List.range os.length) (List.nodup_range os.length) (List.mem_range.mpr hlt)
    (by
      intro j _ hne
      dsimp only
      rw [List.get?_eq_getElem?, List.getElem?_set_ne (by omega), List.get?_eq_getElem?])
  dsimp only at key
  rw [hg, hg'] at key
  unfold backlogSumI
  rw [List.length_set]
  exact key

theorem origSumI_set {orig : Nat → Nat} {os : List Order} {oi : Nat} {o o' : Order}
    (hgo : os.get? oi = some o) :
    origSumI orig (os.set oi o') + (if o.assigned_worker.isSome then orig oi else 0)
      = origSumI orig os + (if o'.assigned_worker.isSome then orig oi else 0) := by
  have hlt : oi < os.length := (List.get?_eq_some.mp hgo).1
  have hg : (if ((os.get? oi).map fun o => o.assigned_worker.isSome).getD false
      then orig oi else 0) = if o.assigned_worker.isSome then orig oi else 0 := by
    rw [hgo, Option.map_some', Option.getD_some]
  have hg' : (if (((os.set oi o').get? oi).map fun o => o.assigned_worker.isSome).getD false
      then orig oi else 0) = if o'.assigned_worker.isSome then orig oi else 0 := by
    rw [List.get?_eq_getElem?, List.getElem?_set_eq_of_lt _ hlt, Option.map_some',
      Option.getD_some]
  have key := sum_map_point
    (fun i => if ((os.get? i).map fun o => o.assigned_worker.isSome).getD false
      then orig i else 0)
    (fun i => if (((os.set oi o').get? i).map fun o => o.assigned_worker.isSome).getD false
      then orig i else 0)
    oi (List.range os.length) (List.nodup_range os.length) (List.mem_range.mpr hlt)
    (by
      intro j _ hne
      dsimp only
      rw [List.get?_eq_getElem?, List.getElem?_set_ne (by omega), List.get?_eq_getElem?])
  dsimp only at key
  rw [hg, hg'] at key
  unfold origSumI
  rw [List.length_set]
  exact key

theorem origSumI_congr {orig : Nat → Nat} {os os' : List Order}
    (hlen : os'.length = os.length)
    (hpt : ∀ j, ((os'.get? j).map fun o => o.assigned_worker.isSome)
        = ((os.get? j).map fun o => o.assigned_worker.isSome)) :
    origSumI orig os' = origSumI orig os := by
  unfold origSumI
  rw [hlen]
  congr 1
  apply List.map_congr_left
  intro i _
  rw [hpt i]

theorem goodWorkerB_congr {os os' : List Order}
    (hpt : ∀ j, ((os'.get? j).map fun o => o.assigned_worker.isSome)
        = ((os.get? j).map fun o => o.assigned_worker.isSome))
    (wk : Worker) : goodWorkerB os' wk = goodWorkerB os wk := by
  unfold goodWorkerB
  cases hcur : wk.current_order with
  | none => rfl
  | some i =>
    dsimp only
    rw [hpt i]

theorem goodWorkerB_mono {os os' : List Order}
    (hpt : ∀ j, ((os.get? j).map fun o => o.assigned_worker.isSome).getD false = true →
        ((os'.get? j).map fun o => o.assigned_worker.isSome).getD false = true)
    {wk : Worker} (hgw : goodWorkerB os wk = true) : goodWorkerB os' wk = true := by
  unfold goodWorkerB at hgw ⊢
  cases hcur : wk.current_order with
  | none => rfl
  | some i =>
    rw [hcur] at hgw
    exact hpt i hgw

theorem goodA_set {w h : Nat} {orig : Nat → Nat} {os : List Order} {oi : Nat} {o' : Order}
    (hA : ∀ i < os.length, ((os.get? i).map (goodOrderB w h orig i)).getD true = true)
    (hlt : oi < os.length)
    (hgood : goodOrderB w h orig oi o' = true) :
    ∀ i < (os.set oi o').length,
      (((os.set oi o').get? i).map (goodOrderB w h orig i)).getD true = true := by
  intro i hi
  rw [List.length_set] at hi
  by_cases hio : i = oi
  · subst hio
    rw [List.get?_eq_getElem?, List.getElem?_set_eq_of_lt _ hlt]
    exact hgood
  · rw [List.get?_eq_getElem?, List.getElem?_set_ne (by omega), ← List.get?_eq_getElem?]
    exact hA i hi

theorem isSome_pt_set {os : List Order} {oi : Nat} {o o' : Order}
    (hgo : os.get? oi = some o)
    (ha : o'.assigned_worker.isSome = o.assigned_worker.isSome) :
    ∀ j, (((os.set oi o').get? j).map fun o => o.assigned_worker.isSome)
        = ((os.get? j).map fun o => o.assigned_worker.isSome) := by
  intro j
  by_cases hj : j = oi
  · subst hj
    rw [List.get?_eq_getElem?, List.getElem?_set_eq_of_lt _ (List.get?_eq_some.mp hgo).1, hgo]
    simp [ha]
  · rw [List.get?_eq_getElem?, List.getElem?_set_ne (by omega), List.get?_eq_getElem?]

theorem planFromItems_known {w h : Nat} {pos : Pos} {items : List Nat}
    {p : List Pos} {its : List Nat} {logs : List LogMsg}
    (hpf : planFromItems w h pos items = some (p, its, logs))
    (hknown : (items.all fun item => (storage_location w h item).isSome) = true) :
    its = items := by
  cases items with
  | nil =>
    unfold planFromItems at hpf
    simp only [Option.bind_eq_bind, Option.bind_eq_some] at hpf
    obtain ⟨q, hq, hpf⟩ := hpf
    cases hpf
    rfl
  | cons i rest =>
    rw [List.all_cons, Bool.and_eq_true] at hknown
    unfold planFromItems at hpf
    cases hsl : storage_location w h i with
    | none => rw [hsl] at hknown; simp at hknown
    | some loc =>
      rw [hsl] at hpf
      simp only [Option.bind_eq_bind, Option.bind_eq_some] at hpf
      obtain ⟨q, hq, hpf⟩ := hpf
      cases hpf
      rfl

theorem plan_known {w h : Nat} {wk wk' : Worker} {os os' : List Order} {oi : Nat} {o : Order}
    (hp : plan_path_to_next_item w h wk os = some (wk', os'))
    (hcur : wk.current_order = some oi) (hgo : os.get? oi = some o)
    (hknown : (o.items.all fun item => (storage_location w h item).isSome) = true) :
    os' = os.set oi o := by
  rw [plan_path_some hcur hgo] at hp
  cases hpf : planFromItems w h wk.position o.items with
  | none => rw [hpf] at hp; cases hp
  | some r =>
    rw [hpf] at hp
    obtain ⟨p, its, logs⟩ := r
    have hits : its = o.items := planFromItems_known hpf hknown
    simp only [Option.map_some', Option.some.injEq, Prod.mk.injEq] at hp
    rw [← hp.2, hits]

theorem move_account {w h : Nat} {orig : Nat → Nat} {t : Rat} {wk wk' : Worker}
    {os os' : List Order} {b : Bool}
    (hm : Worker.move w h t wk os = some (wk', os', b))
    (hA : ∀ i < os.length, ((os.get? i).map (goodOrderB w h orig i)).getD true = true)
    (hB : goodWorkerB os wk = true) :
    os'.length = os.length ∧
    (∀ i < os'.length, ((os'.get? i).map (goodOrderB w h orig i)).getD true = true) ∧
    (∀ j, ((os'.get? j).map fun o => o.assigned_worker.isSome)
        = ((os.get? j).map fun o => o.assigned_worker.isSome)) ∧
    goodWorkerB os' wk' = true ∧
    wk'.total_items_picked + backlogSumI os' = wk.total_items_picked + backlogSumI os := by
  unfold Worker.move at hm
  split at hm
  · cases hm
    exact ⟨rfl, hA, fun j => rfl, hB, rfl⟩
  · simp only [Option.bind_eq_bind, Option.bind_eq_some] at hm
    obtain ⟨next, hnx, hm⟩ := hm
    split at hm
    · cases hm
      exact ⟨rfl, hA, fun j => rfl, hB, rfl⟩
    · split at hm
      case isFalse.intro.intro.isFalse.h_1 oi hcur =>
        rw [Option.bind_eq_some] at hm
        obtain ⟨o, hgo, hm⟩ := hm
        have hcur' : wk.current_order = some oi := hcur
        have hlt : oi < os.length := (List.get?_eq_some.mp hgo).1
        have hAoi := hA oi hlt
        rw [hgo] at hAoi
        have hAoi' : goodOrderB w h orig oi o = true := hAoi
        unfold goodOrderB at hAoi'
        rw [Bool.and_eq_true] at hAoi'
        obtain ⟨hdisj, hknown⟩ := hAoi'
        have hassigned : o.assigned_worker.isSome = true := by
          have hgw := hB
          unfold goodWorkerB at hgw
          simp only [hcur'] at hgw
          rw [hgo] at hgw
          simpa using hgw
        split at hm
        case h_1 item rest hitems =>
          rw [Option.bind_eq_some] at hm
          obtain ⟨r, hpl, hm⟩ := hm
          obtain ⟨wk2, os2⟩ := r
          cases hm
          have hknownRest : (rest.all fun item => (storage_location w h item).isSome) = true := by
            rw [hitems, List.all_cons, Bool.and_eq_true] at hknown
            exact hknown.2
          have hgoP : (os.set oi { o with items := rest }).get? oi
              = some { o with items := rest } := by
            rw [List.get?_eq_getElem?, List.getElem?_set_eq_of_lt _ hlt]
          have hos2 : os2 = (os.set oi { o with items := rest }).set oi { o with items := rest } :=
            plan_known hpl hcur hgoP hknownRest
          have hos2' : os2 = os.set oi { o with items := rest } := by
            rw [hos2, List.set_set]
          have hgood : goodOrderB w h orig oi { o with items := rest } = true := by
            simp [goodOrderB, hassigned, hknownRest]
          have hf := plan_fields hpl
          have hcur2 : wk2.current_order = some oi := by
            rw [hf.2.2.2.2.1]
            exact hcur
          refine ⟨?_, ?_, ?_, ?_, ?_⟩
          · rw [hos2', List.length_set]
          · rw [hos2']
            exact goodA_set hA hlt hgood
          · rw [hos2']
            exact isSome_pt_set hgo rfl
          · unfold goodWorkerB
            simp only [hcur2]
            rw [hos2', List.get?_eq_getElem?, List.getElem?_set_eq_of_lt _ hlt]
            simpa using hassigned
          · have hpicked : wk2.total_items_picked = wk.total_items_picked + 1 := by
              rw [hf.2.2.2.2.2.1]
            have hbs := @backlogSumI_set os oi o { o with items := rest } hgo
            simp [hitems, hassigned] at hbs
            rw [hos2']
            dsimp only
            omega
        case h_2 hitems =>
          split at hm
          · cases hm
            have hgood : goodOrderB w h orig oi (Order.mark_as_completed o t) = true := hAoi
            refine ⟨by rw [List.length_set], goodA_set hA hlt hgood, ?_, rfl, ?_⟩
            · exact isSome_pt_set hgo rfl
            · have hbs := @backlogSumI_set os oi o (Order.mark_as_completed o t) hgo
              have e1 : (Order.mark_as_completed o t).assigned_worker.isSome
                  = o.assigned_worker.isSome := rfl
              have e2 : (Order.mark_as_completed o t).items = o.items := rfl
              rw [e1, e2] at hbs
              dsimp only
              omega
          · cases hm
            exact ⟨rfl, hA, fun j => rfl, hB, rfl⟩
      case isFalse.intro.intro.isFalse.h_2 hcur =>
        cases hm
        have hgw : goodWorkerB os wk = true := hB
        refine ⟨rfl, hA, fun j => rfl, ?_, rfl⟩
        unfold goodWorkerB
        simp only [hcur]

theorem moveOne_account {w h : Nat} {orig : Nat → Nat} {t : Rat}
    {acc acc' : List Worker × List Order × List Nat} {k : Nat}
    (hmo : moveOne w h t acc k = some acc')
    (hG : GoodPhase w h orig acc.1 acc.2.1) : GoodPhase w h orig acc'.1 acc'.2.1 := by
  obtain ⟨ws, os, comp⟩ := acc
  obtain ⟨ws', os', comp'⟩ := acc'
  obtain ⟨hA, hB, hcons⟩ := hG
  unfold moveOne at hmo
  simp only [Option.bind_eq_bind, Option.bind_eq_some] at hmo
  obtain ⟨wk, hget, hmo⟩ := hmo
  split at hmo
  · rw [Option.bind_eq_some] at hmo
    obtain ⟨r, hmv, hmo⟩ := hmo
    obtain ⟨wk2, os2, b2⟩ := r
    cases hmo
    obtain ⟨hlen, hA2, hpt, hgw2, hpick⟩ := move_account hmv hA (hB wk (List.get?_mem hget))
    refine ⟨hA2, ?_, ?_⟩
    · intro wk3 hwk3
      rcases List.mem_or_eq_of_mem_set hwk3 with hmem | heq
      · rw [goodWorkerB_congr hpt wk3]
        exact hB wk3 hmem
      · rw [heq]
        exact hgw2
    · have htp := @totalPicked_set ws k wk wk2 hget
      have hb := assignedBacklogSum_eq os
      have hb2 := assignedBacklogSum_eq os2
      have ho := assignedOrigSum_eq orig os
      have ho2 := assignedOrigSum_eq orig os2
      have horg : origSumI orig os2 = origSumI orig os := origSumI_congr hlen hpt
      dsimp only at hcons
      rw [hb, ho] at hcons
      dsimp only
      rw [hb2, ho2]
      omega
  · cases hmo
    exact ⟨hA, hB, hcons⟩

theorem foldl_moveOne_account {w h : Nat} {orig : Nat → Nat} {t : Rat} :
    ∀ (ks : List Nat) (acc acc' : List Worker × List Order × List Nat),
      ks.foldlM (moveOne w h t) acc = some acc' →
      GoodPhase w h orig acc.1 acc.2.1 → GoodPhase w h orig acc'.1 acc'.2.1 := by
  intro ks
  induction ks with
  | nil =>
    intro acc acc' hf hG
    simp only [List.foldlM_nil] at hf
    cases hf
    exact hG
  | cons k ks ih =>
    intro acc acc' hf hG
    rw [List.foldlM_cons, Option.bind_eq_bind, Option.bind_eq_some] at hf
    obtain ⟨acc1, hmo, hf⟩ := hf
    exact ih acc1 acc' hf (moveOne_account hmo hG)

theorem assign_account {w h : Nat} {orig : Nat → Nat} {wk wk' : Worker} {oi : Nat}
    {os os' : List Order}
    (ha : assign_order w h wk oi os = some (wk', os'))
    (hA : ∀ i < os.length, ((os.get? i).map (goodOrderB w h orig i)).getD true = true) :
    os'.length = os.length ∧
    (∀ i < os'.length, ((os'.get? i).map (goodOrderB w h orig i)).getD true = true) ∧
    (∀ j, ((os.get? j).map fun o => o.assigned_worker.isSome).getD false = true →
        ((os'.get? j).map fun o => o.assigned_worker.isSome).getD false = true) ∧
    goodWorkerB os' wk' = true ∧
    wk'.total_items_picked = wk.total_items_picked ∧
    backlogSumI os' + origSumI orig os = backlogSumI os + origSumI orig os' := by
  unfold assign_order at ha
  cases hgo : os.get? oi with
  | none => rw [hgo] at ha; cases ha
  | some o =>
    rw [hgo] at ha
    simp only [Option.bind_eq_bind, Option.some_bind] at ha
    have hlt : oi < os.length := (List.get?_eq_some.mp hgo).1
    have hAoi := hA oi hlt
    rw [hgo] at hAoi
    have hAoi' : goodOrderB w h orig oi o = true := hAoi
    unfold goodOrderB at hAoi'
    rw [Bool.and_eq_true] at hAoi'
    obtain ⟨hdisj, hknown⟩ := hAoi'
    have hgo1 : (os.set oi { o with assigned_worker := some wk.worker_id }).get? oi
        = some { o with assigned_worker := some wk.worker_id } := by
      rw [List.get?_eq_getElem?, List.getElem?_set_eq_of_lt _ hlt]
    have hos' : os' = (os.set oi { o with assigned_worker := some wk.worker_id }).set oi
        { o with assigned_worker := some wk.worker_id } :=
      plan_known ha rfl hgo1 hknown
    have hos'' : os' = os.set oi { o with assigned_worker := some wk.worker_id } := by
      rw [hos', List.set_set]
    have hf := plan_fields ha
    have hcur' : wk'.current_order = some oi := by
      rw [hf.2.2.2.2.1]
    have hgood : goodOrderB w h orig oi { o with assigned_worker := some wk.worker_id }
        = true := by
      simp [goodOrderB, hknown]
    refine ⟨?_, ?_, ?_, ?_, ?_, ?_⟩
    · rw [hos'', List.length_set]
    · rw [hos'']
      exact goodA_set hA hlt hgood
    · intro j hj
      by_cases hji : j = oi
      · subst hji
        rw [hos'', List.get?_eq_getElem?, List.getElem?_set_eq_of_lt _ hlt]
        rfl
      · rw [hos'', List.get?_eq_getElem?, List.getElem?_set_ne (by omega),
          ← List.get?_eq_getElem?]
        exact hj
    · unfold goodWorkerB
      simp only [hcur']
      rw [hos'', List.get?_eq_getElem?, List.getElem?_set_eq_of_lt _ hlt]
      rfl
    · rw [hf.2.2.2.2.2.1]
    · have hbs := @backlogSumI_set os oi o { o with assigned_worker := some wk.worker_id } hgo
      have hon := @origSumI_set orig os oi o { o with assigned_worker := some wk.worker_id } hgo
      rw [hos'']
      cases hsome : o.assigned_worker.isSome with
      | true =>
        simp [hsome] at hbs hon
        omega
      | false =>
        have hlen' : o.items.length = orig oi := by
          rw [hsome] at hdisj
          simpa using hdisj
        simp [hsome] at hbs hon
        omega

theorem assignLoop_account {w h : Nat} {orig : Nat → Nat} :
    ∀ (lst : List Nat) (ws ws' : List Worker) (os os' : List Order) (pend pend' : List Nat),
      assignLoop w h lst ws os pend = some (ws', os', pend') →
      GoodPhase w h orig ws os → GoodPhase w h orig ws' os' := by
  intro lst
  induction lst with
  | nil =>
    intro ws ws' os os' pend pend' hrun hG
    rw [assignLoop_nil] at hrun
    cases hrun
    exact hG
  | cons oi rest ih =>
    intro ws ws' os os' pend pend' hrun hG
    obtain ⟨hA, hB, hcons⟩ := hG
    cases hfi : ws.findIdx? (fun wk => !wk.is_busy) with
    | none =>
      rw [assignLoop_cons_none hfi] at hrun
      exact ih ws ws' os os' (pend ++ [oi]) pend' hrun ⟨hA, hB, hcons⟩
    | some wi =>
      rw [assignLoop_cons_idle hfi] at hrun
      simp only [Option.bind_eq_bind, Option.bind_eq_some] at hrun
      obtain ⟨wk, hget, hrun⟩ := hrun
      obtain ⟨r, hao, hrun⟩ := hrun
      obtain ⟨wk2, os2⟩ := r
      obtain ⟨hlen, hA2, hmono, hgw2, hpick, hsum⟩ := assign_account hao hA
      refine ih (ws.set wi wk2) ws' os2 os' pend pend' hrun ⟨hA2, ?_, ?_⟩
      · intro wk3 hwk3
        rcases List.mem_or_eq_of_mem_set hwk3 with hmem | heq
        · exact goodWorkerB_mono hmono (hB wk3 hmem)
        · rw [heq]
          exact hgw2
      · have htp := @totalPicked_set ws wi wk wk2 hget
        have hb := assignedBacklogSum_eq os
        have hb2 := assignedBacklogSum_eq os2
        have ho := assignedOrigSum_eq orig os
        have ho2 := assignedOrigSum_eq orig os2
        rw [hb, ho] at hcons
        rw [hb2, ho2]
        omega

theorem update_account {orig : Nat → Nat} {wallNow : Rat} {s s' : SimState}
    (hu : update wallNow s = some s') (hG : GoodC9 orig s) : GoodC9 orig s' := by
  unfold update at hu
  simp only [Option.bind_eq_bind, Option.bind_eq_some] at hu
  obtain ⟨r1, hmp, hu⟩ := hu
  obtain ⟨ws1, os1, comp1⟩ := r1
  obtain ⟨r2, has, hu⟩ := hu
  obtain ⟨ws2, os2, pend2⟩ := r2
  cases hu
  have hG1 : GoodPhase s.width s.height orig ws1 os1 :=
    foldl_moveOne_account (List.range s.workers.length)
      (s.workers, s.orders, s.completed_orders) (ws1, os1, comp1) hmp hG
  have hG2 : GoodPhase s.width s.height orig ws2 os2 :=
    assignLoop_account (sortStable (priorityOf os1) s.pending_orders)
      ws1 ws2 os1 os2 [] pend2 has hG1
  exact hG2

theorem iterUpdate_account {orig : Nat → Nat} {wall : Nat → Rat} :
    ∀ {n : Nat} {s s' : SimState}, GoodC9 orig s → iterUpdate wall n s = some s' →
      GoodC9 orig s' := by
  intro n
  induction n with
  | zero =>
    intro s s' hG hit
    cases hit
    exact hG
  | succ n ih =>
    intro s s' hG hit
    unfold iterUpdate at hit
    rw [Option.bind_eq_bind, Option.bind_eq_some] at hit
    obtain ⟨s1, hu, hit⟩ := hit
    exact ih (update_account hu hG) hit

/-- C9 (amended): conservation of picked items.  From any state satisfying the
invariant GoodC9 orig — every order's items all have storage locations, orders
not yet assigned still hold their original item count orig i, workers only
reference assigned orders, and the conservation equation already holds (all of
which are true of a freshly initialised simulator whose pre-created orders have
locatable items) — any number of simulation ticks preserves the invariant, so
at every tick the workers' total_items_picked sum equals the sum of the
original item counts of the orders whose assigned_worker is set minus the sum
of those same orders' current backlog lengths.  The spec's unqualified claim
is refuted separately: when an assigned order references an item absent from
storage_locations the item is dropped without a pick and the equality breaks. -/
theorem C9_conservation {orig : Nat → Nat} {wall : Nat → Rat} {n : Nat} {s s' : SimState}
    (hG : GoodC9 orig s) (hrun : iterUpdate wall n s = some s') :
    GoodC9 orig s' ∧
    totalPicked s'.workers + assignedBacklogSum s'.orders = assignedOrigSum orig s'.orders ∧
    totalPicked s'.workers = assignedOrigSum orig s'.orders - assignedBacklogSum s'.orders := by
  have hG' := iterUpdate_account hG hrun
  have hcons := hG'.2.2
  exact ⟨hG', hcons, by omega⟩

/-- C9 witness: the single-order 5x5 scenario (whose order holds the one
locatable product 1) satisfies GoodC9 with orig constantly 1, and the theorem
applied to a 3-tick run confirms the conservation equation at the final state. -/
theorem C9_conservation_witness :
    GoodC9 (fun _ => 1) (scenarioInit 0) ∧
    ∃ s', iterUpdate (fun _ => 0) 3 (scenarioInit 0) = some s' ∧
      (GoodC9 (fun _ => 1) s' ∧
       totalPicked s'.workers + assignedBacklogSum s'.orders
          = assignedOrigSum (fun _ => 1) s'.orders ∧
       totalPicked s'.workers
          = assignedOrigSum (fun _ => 1) s'.orders - assignedBacklogSum s'.orders) := by
  refine ⟨by decide, ?_⟩
  cases hres : iterUpdate (fun _ => 0) 3 (scenarioInit 0) with
  | none => exact absurd hres (by decide)
  | some s' => exact ⟨s', rfl, C9_conservation (by decide) hres⟩

theorem list_find_congr {p q : Nat → Bool} :
    ∀ l : List Nat, (∀ a ∈ l, p a = q a) → l.find? p = l.find? q := by
  intro l
  induction l with
  | nil => intro _; rfl
  | cons a l ih =>
    intro hpq
    rw [List.find?_cons, List.find?_cons, hpq a (List.mem_cons_self _ _)]
    cases q a with
    | true => rfl
    | false => exact ih fun b hb => hpq b (List.mem_cons_of_mem _ hb)

theorem eraseO_fields (o : Order) :
    (eraseO o).order_id = o.order_id ∧ (eraseO o).items = o.items ∧
    (eraseO o).priority = o.priority ∧ (eraseO o).completed_time = o.completed_time ∧
    (eraseO o).assigned_worker = o.assigned_worker :=
  ⟨rfl, rfl, rfl, rfl, rfl⟩

theorem rel_get? {os1 os2 : List Order} (hR : os1.map eraseO = os2.map eraseO) (i : Nat) :
    (os1.get? i).map eraseO = (os2.get? i).map eraseO := by
  have := congrArg (fun l => l.get? i) hR
  simpa only [List.get?_map] using this

theorem rel_set {os1 os2 : List Order} (hR : os1.map eraseO = os2.map eraseO)
    {o1 o2 : Order} (ho : eraseO o1 = eraseO o2) (i : Nat) :
    (os1.set i o1).map eraseO = (os2.set i o2).map eraseO := by
  rw [List.map_set, List.map_set, hR, ho]

theorem sweepFind_congr {os1 os2 : List Order} (hR : os1.map eraseO = os2.map eraseO)
    (wid : Nat) (comp : List Nat) :
    sweepFind os1 wid comp = sweepFind os2 wid comp := by
  unfold sweepFind
  have hlen : os1.length = os2.length := by
    have := congrArg List.length hR
    simpa using this
  rw [hlen]
  apply list_find_congr
  intro i _
  have hg := rel_get? hR i
  cases h1 : os1.get? i with
  | none =>
    rw [h1] at hg
    cases h2 : os2.get? i with
    | none => rfl
    | some o2 => rw [h2] at hg; simp at hg
  | some o1 =>
    rw [h1] at hg
    cases h2 : os2.get? i with
    | none => rw [h2] at hg; simp at hg
    | some o2 =>
      rw [h2] at hg
      simp only [Option.map_some', Option.some.injEq] at hg
      have ha : o1.assigned_worker = o2.assigned_worker := by have hx := congrArg Order.assigned_worker hg; exact hx
      have hi : o1.items = o2.items := by have hx := congrArg Order.items hg; exact hx
      have hc : o1.completed_time = o2.completed_time := by have hx := congrArg Order.completed_time hg; exact hx
      dsimp only
      rw [show o1.is_completed = o2.is_completed from by unfold Order.is_completed; rw [hi, hc],
        ha]

theorem plan_congr {w h : Nat} {wk : Worker} {os1 os2 : List Order}
    (hR : os1.map eraseO = os2.map eraseO) :
    (plan_path_to_next_item w h wk os1).map (fun r => (r.1, r.2.map eraseO))
      = (plan_path_to_next_item w h wk os2).map (fun r => (r.1, r.2.map eraseO)) := by
  cases hcur : wk.current_order with
  | none =>
    rw [plan_path_none hcur, plan_path_none hcur]
    cases (find_shortest_path w h wk.position (picking_station w h)).toOption with
    | none => rfl
    | some p =>
      simp only [Option.map_some']
      rw [hR]
  | some oi =>
    have hg := rel_get? hR oi
    cases h1 : os1.get? oi with
    | none =>
      rw [h1] at hg
      cases h2 : os2.get? oi with
      | none => rw [plan_path_miss hcur h1, plan_path_miss hcur h2]
      | some o2 => rw [h2] at hg; simp at hg
    | some o1 =>
      rw [h1] at hg
      cases h2 : os2.get? oi with
      | none => rw [h2] at hg; simp at hg
      | some o2 =>
        rw [h2] at hg
        simp only [Option.map_some', Option.some.injEq] at hg
        have hitems : o1.items = o2.items := by have hx := congrArg Order.items hg; exact hx
        rw [plan_path_some hcur h1, plan_path_some hcur h2, ← hitems]
        cases hpf : planFromItems w h wk.position o1.items with
        | none => rfl
        | some r =>
          simp only [Option.map_some']
          have hupd : eraseO { o1 with items := r.2.1 } = eraseO { o2 with items := r.2.1 } := by
            show ({ eraseO o1 with items := r.2.1 } : Order) = { eraseO o2 with items := r.2.1 }
            rw [hg]
          rw [rel_set hR hupd oi]

theorem assign_congr {w h : Nat} {wk : Worker} {oi : Nat} {os1 os2 : List Order}
    (hR : os1.map eraseO = os2.map eraseO) :
    (assign_order w h wk oi os1).map (fun r => (r.1, r.2.map eraseO))
      = (assign_order w h wk oi os2).map (fun r => (r.1, r.2.map eraseO)) := by
  unfold assign_order
  have hg := rel_get? hR oi
  cases h1 : os1.get? oi with
  | none =>
    rw [h1] at hg
    cases h2 : os2.get? oi with
    | none => rfl
    | some o2 => rw [h2] at hg; simp at hg
  | some o1 =>
    rw [h1] at hg
    cases h2 : os2.get? oi with
    | none => rw [h2] at hg; simp at hg
    | some o2 =>
      rw [h2] at hg
      simp only [Option.map_some', Option.some.injEq] at hg
      have hid : o1.order_id = o2.order_id := by have hx := congrArg Order.order_id hg; exact hx
      have hitems : o1.items = o2.items := by have hx := congrArg Order.items hg; exact hx
      simp only [Option.bind_eq_bind, Option.some_bind]
      have hupd : eraseO { o1 with assigned_worker := some wk.worker_id }
          = eraseO { o2 with assigned_worker := some wk.worker_id } := by
        show ({ eraseO o1 with assigned_worker := some wk.worker_id } : Order)
          = { eraseO o2 with assigned_worker := some wk.worker_id }
        rw [hg]
      have hstep := @plan_congr w h
        { wk with current_order := some oi, is_busy := true,
                  activity_log := wk.activity_log
                    ++ [LogMsg.orderReceived o1.order_id o1.items.length] }
        (os1.set oi { o1 with assigned_worker := some wk.worker_id })
        (os2.set oi { o2 with assigned_worker := some wk.worker_id })
        (rel_set hR hupd oi)
      rw [hstep, hid, hitems]

theorem move_congr {w h : Nat} {t : Rat} {wk : Worker} {os1 os2 : List Order}
    (hR : os1.map eraseO = os2.map eraseO) :
    (Worker.move w h t wk os1).map (fun r => (r.1, r.2.1.map eraseO, r.2.2))
      = (Worker.move w h t wk os2).map (fun r => (r.1, r.2.1.map eraseO, r.2.2)) := by
  unfold Worker.move
  by_cases hguard : ¬wk.is_busy = true ∨ wk.path = [] ∨ wk.path.length ≤ wk.path_index
  · rw [if_pos hguard, if_pos hguard]
    simp only [Option.map_some']
    rw [hR]
  · rw [if_neg hguard, if_neg hguard]
    cases hnx : wk.path.get? wk.path_index with
    | none => simp only [Option.bind_eq_bind, Option.none_bind]
    | some next =>
      simp only [Option.bind_eq_bind, Option.some_bind]
      by_cases hlt : wk.path_index + 1 < wk.path.length
      · rw [if_pos hlt, if_pos hlt]
        simp only [Option.map_some']
        rw [hR]
      · rw [if_neg hlt, if_neg hlt]
        cases hcur : wk.current_order with
        | none =>
          simp only [Option.map_some']
          rw [hR]
        | some oi =>
          dsimp only
          have hg := rel_get? hR oi
          cases h1 : os1.get? oi with
          | none =>
            rw [h1] at hg
            cases h2 : os2.get? oi with
            | none => rfl
            | some o2 => rw [h2] at hg; simp at hg
          | some o1 =>
            rw [h1] at hg
            cases h2 : os2.get? oi with
            | none => rw [h2] at hg; simp at hg
            | some o2 =>
              rw [h2] at hg
              simp only [Option.map_some', Option.some.injEq] at hg
              have hid : o1.order_id = o2.order_id := by
                have hx := congrArg Order.order_id hg; exact hx
              have hitems : o1.items = o2.items := by
                have hx := congrArg Order.items hg; exact hx
              simp only [Option.some_bind]
              rw [show o2.items = o1.items from hitems.symm]
              cases hI : o1.items with
              | nil =>
                dsimp only
                by_cases hpos : next = picking_station w h
                · rw [if_pos hpos, if_pos hpos]
                  simp only [Option.map_some']
                  have hmark : eraseO (Order.mark_as_completed o1 t)
                      = eraseO (Order.mark_as_completed o2 t) := by
                    show ({ eraseO o1 with completed_time := some t } : Order)
                      = { eraseO o2 with completed_time := some t }
                    rw [hg]
                  rw [hid, rel_set hR hmark oi]
                · rw [if_neg hpos, if_neg hpos]
                  simp only [Option.map_some']
                  rw [hR]
              | cons item rest =>
                dsimp only
                have hupd : eraseO { o1 with items := rest } = eraseO { o2 with items := rest } := by
                  show ({ eraseO o1 with items := rest } : Order)
                    = { eraseO o2 with items := rest }
                  rw [hg]
                have key : ∀ (X Y : Option (Worker × List Order)),
                    X.map (fun r => (r.1, r.2.map eraseO))
                      = Y.map (fun r => (r.1, r.2.map eraseO)) →
                    ((X.bind fun r => some (r.1, r.2, true)).map
                        (fun r => (r.1, r.2.1.map eraseO, r.2.2)))
                      = ((Y.bind fun r => some (r.1, r.2, true)).map
                        (fun r => (r.1, r.2.1.map eraseO, r.2.2))) := by
                  intro X Y hXY
                  cases X with
                  | none =>
                    cases Y with
                    | none => rfl
                    | some ry => simp at hXY
                  | some rx =>
                    cases Y with
                    | none => simp at hXY
                    | some ry =>
                      simp only [Option.map_some', Option.some.injEq, Prod.mk.injEq] at hXY
                      simp only [Option.some_bind, Option.map_some']
                      simp [hXY.1, hXY.2]
                exact key _ _ (plan_congr (rel_set hR hupd oi))
theorem moveOne_congr {w h : Nat} {t : Rat} {ws : List Worker} {os1 os2 : List Order}
    {comp : List Nat} {k : Nat} (hR : os1.map eraseO = os2.map eraseO) :
    (moveOne w h t (ws, os1, comp) k).map (fun r => (r.1, r.2.1.map eraseO, r.2.2))
      = (moveOne w h t (ws, os2, comp) k).map (fun r => (r.1, r.2.1.map eraseO, r.2.2)) := by
  unfold moveOne
  dsimp only
  cases hget : ws.get? k with
  | none => rfl
  | some wk =>
    simp only [Option.bind_eq_bind, Option.some_bind]
    by_cases hbusy : wk.is_busy = true
    · rw [if_pos hbusy, if_pos hbusy]
      have hmc := @move_congr w h t wk os1 os2 hR
      cases hm1 : Worker.move w h t wk os1 with
      | none =>
        cases hm2 : Worker.move w h t wk os2 with
        | none => rfl
        | some r2 => rw [hm1, hm2] at hmc; simp at hmc
      | some r1 =>
        cases hm2 : Worker.move w h t wk os2 with
        | none => rw [hm1, hm2] at hmc; simp at hmc
        | some r2 =>
          obtain ⟨wk1, us1, b1⟩ := r1
          obtain ⟨wk2, us2, b2⟩ := r2
          rw [hm1, hm2] at hmc
          simp only [Option.map_some', Option.some.injEq, Prod.mk.injEq] at hmc
          obtain ⟨hw, hos, hb⟩ := hmc
          simp only [Option.some_bind, Option.map_some']
          rw [hw, hos, sweepFind_congr hos]
    · rw [if_neg hbusy, if_neg hbusy]
      simp only [Option.map_some']
      rw [hR]

theorem foldl_moveOne_congr {w h : Nat} {t : Rat} :
    ∀ (ks : List Nat) (ws : List Worker) (os1 os2 : List Order) (comp : List Nat),
      os1.map eraseO = os2.map eraseO →
      (ks.foldlM (moveOne w h t) (ws, os1, comp)).map
          (fun r => (r.1, r.2.1.map eraseO, r.2.2))
        = (ks.foldlM (moveOne w h t) (ws, os2, comp)).map
          (fun r => (r.1, r.2.1.map eraseO, r.2.2)) := by
  intro ks
  induction ks with
  | nil =>
    intro ws os1 os2 comp hR
    simp only [List.foldlM_nil, Option.pure_def, Option.map_some']
    rw [hR]
  | cons k ks ih =>
    intro ws os1 os2 comp hR
    rw [List.foldlM_cons, List.foldlM_cons]
    have hmo := @moveOne_congr w h t ws os1 os2 comp k hR
    cases ho1 : moveOne w h t (ws, os1, comp) k with
    | none =>
      cases ho2 : moveOne w h t (ws, os2, comp) k with
      | none => rfl
      | some r2 => rw [ho1, ho2] at hmo; simp at hmo
    | some r1 =>
      cases ho2 : moveOne w h t (ws, os2, comp) k with
      | none => rw [ho1, ho2] at hmo; simp at hmo
      | some r2 =>
        obtain ⟨ws1, us1, comp1⟩ := r1
        obtain ⟨ws2, us2, comp2⟩ := r2
        rw [ho1, ho2] at hmo
        simp only [Option.map_some', Option.some.injEq, Prod.mk.injEq] at hmo
        obtain ⟨hw, hos, hc⟩ := hmo
        simp only [Option.bind_eq_bind, Option.some_bind]
        rw [hw, hc]
        exact ih ws2 us1 us2 comp2 hos

theorem priorityOf_congr {os1 os2 : List Order} (hR : os1.map eraseO = os2.map eraseO) :
    priorityOf os1 = priorityOf os2 := by
  funext i
  unfold priorityOf
  have hg := rel_get? hR i
  cases h1 : os1.get? i with
  | none =>
    rw [h1] at hg
    cases h2 : os2.get? i with
    | none => rfl
    | some o2 => rw [h2] at hg; simp at hg
  | some o1 =>
    rw [h1] at hg
    cases h2 : os2.get? i with
    | none => rw [h2] at hg; simp at hg
    | some o2 =>
      rw [h2] at hg
      simp only [Option.map_some', Option.some.injEq] at hg
      have hp : o1.priority = o2.priority := by
        have hx := congrArg Order.priority hg; exact hx
      rw [Option.map_some', Option.map_some', Option.getD_some, Option.getD_some, hp]

theorem assignLoop_congr {w h : Nat} :
    ∀ (lst : List Nat) (ws : List Worker) (os1 os2 : List Order) (pend : List Nat),
      os1.map eraseO = os2.map eraseO →
      (assignLoop w h lst ws os1 pend).map (fun r => (r.1, r.2.1.map eraseO, r.2.2))
        = (assignLoop w h lst ws os2 pend).map (fun r => (r.1, r.2.1.map eraseO, r.2.2)) := by
  intro lst
  induction lst with
  | nil =>
    intro ws os1 os2 pend hR
    rw [assignLoop_nil, assignLoop_nil]
    simp only [Option.map_some']
    rw [hR]
  | cons oi rest ih =>
    intro ws os1 os2 pend hR
    cases hf : ws.findIdx? (fun wk => !wk.is_busy) with
    | none =>
      rw [assignLoop_cons_none hf, assignLoop_cons_none hf]
      exact ih ws os1 os2 (pend ++ [oi]) hR
    | some wi =>
      rw [assignLoop_cons_idle hf, assignLoop_cons_idle hf]
      cases hget : ws.get? wi with
      | none => rfl
      | some wk =>
        simp only [Option.bind_eq_bind, Option.some_bind]
        have hac := @assign_congr w h wk oi os1 os2 hR
        cases ha1 : assign_order w h wk oi os1 with
        | none =>
          cases ha2 : assign_order w h wk oi os2 with
          | none => rfl
          | some r2 => rw [ha1, ha2] at hac; simp at hac
        | some r1 =>
          cases ha2 : assign_order w h wk oi os2 with
          | none => rw [ha1, ha2] at hac; simp at hac
          | some r2 =>
            obtain ⟨wk1, us1⟩ := r1
            obtain ⟨wk2, us2⟩ := r2
            rw [ha1, ha2] at hac
            simp only [Option.map_some', Option.some.injEq, Prod.mk.injEq] at hac
            obtain ⟨hw, hos⟩ := hac
            simp only [Option.some_bind]
            rw [hw]
            exact ih (ws.set wi wk2) us1 us2 pend hos

theorem assign_orders_congr {w h : Nat} {ws : List Worker} {os1 os2 : List Order}
    {pending : List Nat} (hR : os1.map eraseO = os2.map eraseO) :
    (assign_orders w h ws os1 pending).map (fun r => (r.1, r.2.1.map eraseO, r.2.2))
      = (assign_orders w h ws os2 pending).map (fun r => (r.1, r.2.1.map eraseO, r.2.2)) := by
  unfold assign_orders
  rw [priorityOf_congr hR]
  exact assignLoop_congr _ ws os1 os2 [] hR

theorem eraseO_mk (a : Nat) (its : List Nat) (p : Nat) (c : Rat) :
    eraseO { order_id := a, items := its, priority := p, created_time := c }
      = { order_id := a, items := its, priority := p, created_time := 0 } := rfl

theorem update_stats_congr {u v : Rat} {s1 s2 : SimState}
    (he : eraseWall s1 = eraseWall s2) :
    eraseWall (update_stats u s1) = eraseWall (update_stats v s2) := by
  have hW : s1.width = s2.width := by have hx := congrArg SimState.width he; exact hx
  have hH : s1.height = s2.height := by have hx := congrArg SimState.height he; exact hx
  have hwork : s1.workers = s2.workers := by
    have hx := congrArg SimState.workers he; exact hx
  have hpend : s1.pending_orders = s2.pending_orders := by
    have hx := congrArg SimState.pending_orders he; exact hx
  have hcomp : s1.completed_orders = s2.completed_orders := by
    have hx := congrArg SimState.completed_orders he; exact hx
  have htime : s1.current_time = s2.current_time := by
    have hx := congrArg SimState.current_time he; exact hx
  have hR : s1.orders.map eraseO = s2.orders.map eraseO := by
    have hx := congrArg SimState.orders he; exact hx
  have hst : ({ s1.stats with avg_order_completion_time := 0 } : Stats)
      = { s2.stats with avg_order_completion_time := 0 } := by
    have hx := congrArg SimState.stats he; exact hx
  have hto : s1.stats.total_orders = s2.stats.total_orders := by
    have hx := congrArg Stats.total_orders hst; exact hx
  have hut : s1.stats.worker_utilization = s2.stats.worker_utilization := by
    have hx := congrArg Stats.worker_utilization hst; exact hx
  have hho : s1.stats.hotspots = s2.stats.hotspots := by
    have hx := congrArg Stats.hotspots hst; exact hx
  unfold update_stats eraseWall
  dsimp only
  rw [hW, hH, hwork, hpend, hcomp, htime, hR, hto, hut, hho]
  simp only [apply_ite Stats.total_orders, apply_ite Stats.completed_orders,
    apply_ite Stats.total_items_picked, apply_ite Stats.total_distance,
    apply_ite Stats.worker_utilization, apply_ite Stats.hotspots, ite_self]

theorem generate_congr {oracle : Oracle} {u v : Rat} {s1 s2 : SimState}
    (he : eraseWall s1 = eraseWall s2) :
    eraseWall (generate_random_order oracle u s1)
      = eraseWall (generate_random_order oracle v s2) := by
  have hW : s1.width = s2.width := by have hx := congrArg SimState.width he; exact hx
  have hH : s1.height = s2.height := by have hx := congrArg SimState.height he; exact hx
  have hwork : s1.workers = s2.workers := by
    have hx := congrArg SimState.workers he; exact hx
  have hpend : s1.pending_orders = s2.pending_orders := by
    have hx := congrArg SimState.pending_orders he; exact hx
  have hcomp : s1.completed_orders = s2.completed_orders := by
    have hx := congrArg SimState.completed_orders he; exact hx
  have htime : s1.current_time = s2.current_time := by
    have hx := congrArg SimState.current_time he; exact hx
  have hR : s1.orders.map eraseO = s2.orders.map eraseO := by
    have hx := congrArg SimState.orders he; exact hx
  have hlen : s1.orders.length = s2.orders.length := by
    have hx := congrArg List.length hR
    simpa using hx
  have hst : ({ s1.stats with avg_order_completion_time := 0 } : Stats)
      = { s2.stats with avg_order_completion_time := 0 } := by
    have hx := congrArg SimState.stats he; exact hx
  have hto : s1.stats.total_orders = s2.stats.total_orders := by
    have hx := congrArg Stats.total_orders hst; exact hx
  have hcos : s1.stats.completed_orders = s2.stats.completed_orders := by
    have hx := congrArg Stats.completed_orders hst; exact hx
  have htip : s1.stats.total_items_picked = s2.stats.total_items_picked := by
    have hx := congrArg Stats.total_items_picked hst; exact hx
  have htd : s1.stats.total_distance = s2.stats.total_distance := by
    have hx := congrArg Stats.total_distance hst; exact hx
  have hut : s1.stats.worker_utilization = s2.stats.worker_utilization := by
    have hx := congrArg Stats.worker_utilization hst; exact hx
  have hho : s1.stats.hotspots = s2.stats.hotspots := by
    have hx := congrArg Stats.hotspots hst; exact hx
  unfold generate_random_order
  dsimp only
  rw [hW, hH, hlen]
  by_cases hz : (shelf_cells s2.width s2.height).length = 0
  · rw [if_pos hz, if_pos hz]
    exact he
  · rw [if_neg hz, if_neg hz]
    unfold eraseWall
    dsimp only
    simp only [List.map_append, List.map_cons, List.map_nil, eraseO_mk]
    rw [hwork, hpend, hcomp, htime, hR, hto, hcos, htip, htd, hut, hho]

theorem movePhase_congr {w h : Nat} {t : Rat} {ws : List Worker} {os1 os2 : List Order}
    {comp : List Nat} (hR : os1.map eraseO = os2.map eraseO) :
    (movePhase w h t ws os1 comp).map (fun r => (r.1, r.2.1.map eraseO, r.2.2))
      = (movePhase w h t ws os2 comp).map (fun r => (r.1, r.2.1.map eraseO, r.2.2)) :=
  foldl_moveOne_congr (List.range ws.length) ws os1 os2 comp hR

theorem update_congr {u v : Rat} {s1 s2 : SimState} (he : eraseWall s1 = eraseWall s2) :
    (update u s1).map eraseWall = (update v s2).map eraseWall := by
  have hW : s1.width = s2.width := by have hx := congrArg SimState.width he; exact hx
  have hH : s1.height = s2.height := by have hx := congrArg SimState.height he; exact hx
  have hwork : s1.workers = s2.workers := by
    have hx := congrArg SimState.workers he; exact hx
  have hpend : s1.pending_orders = s2.pending_orders := by
    have hx := congrArg SimState.pending_orders he; exact hx
  have hcomp : s1.completed_orders = s2.completed_orders := by
    have hx := congrArg SimState.completed_orders he; exact hx
  have htime : s1.current_time = s2.current_time := by
    have hx := congrArg SimState.current_time he; exact hx
  have hR : s1.orders.map eraseO = s2.orders.map eraseO := by
    have hx := congrArg SimState.orders he; exact hx
  have hst : ({ s1.stats with avg_order_completion_time := 0 } : Stats)
      = { s2.stats with avg_order_completion_time := 0 } := by
    have hx := congrArg SimState.stats he; exact hx
  unfold update
  dsimp only
  rw [hW, hH, hwork, hpend, hcomp, htime]
  have hmp := @movePhase_congr s2.width s2.height (s2.current_time + 1) s2.workers
    s1.orders s2.orders s2.completed_orders hR
  cases hm1 : movePhase s2.width s2.height (s2.current_time + 1) s2.workers s1.orders
      s2.completed_orders with
  | none =>
    cases hm2 : movePhase s2.width s2.height (s2.current_time + 1) s2.workers s2.orders
        s2.completed_orders with
    | none => rfl
    | some r2 => rw [hm1, hm2] at hmp; simp at hmp
  | some r1 =>
    cases hm2 : movePhase s2.width s2.height (s2.current_time + 1) s2.workers s2.orders
        s2.completed_orders with
    | none => rw [hm1, hm2] at hmp; simp at hmp
    | some r2 =>
      obtain ⟨wsA, osA, compA⟩ := r1
      obtain ⟨wsB, osB, compB⟩ := r2
      rw [hm1, hm2] at hmp
      simp only [Option.map_some', Option.some.injEq, Prod.mk.injEq] at hmp
      obtain ⟨hws, hosR, hcm⟩ := hmp
      simp only [Option.bind_eq_bind, Option.some_bind]
      rw [hws, hcm]
      have hao := @assign_orders_congr s2.width s2.height wsB osA osB
        s2.pending_orders hosR
      cases ha1 : assign_orders s2.width s2.height wsB osA s2.pending_orders with
      | none =>
        cases ha2 : assign_orders s2.width s2.height wsB osB s2.pending_orders with
        | none => rfl
        | some q2 => rw [ha1, ha2] at hao; simp at hao
      | some q1 =>
        cases ha2 : assign_orders s2.width s2.height wsB osB s2.pending_orders with
        | none => rw [ha1, ha2] at hao; simp at hao
        | some q2 =>
          obtain ⟨wsC, osC, pendC⟩ := q1
          obtain ⟨wsD, osD, pendD⟩ := q2
          rw [ha1, ha2] at hao
          simp only [Option.map_some', Option.some.injEq, Prod.mk.injEq] at hao
          obtain ⟨hws2, hosR2, hpd⟩ := hao
          simp only [Option.some_bind, Option.map_some']
          rw [hws2, hpd]
          refine congrArg some (update_stats_congr ?_)
          unfold eraseWall
          dsimp only
          rw [hosR2, hst]

theorem runStep_congr {oracle : Oracle} {freq : Rat} {k : Nat} {wall1 wall2 : Nat → Rat}
    {s1 s2 : SimState} (he : eraseWall s1 = eraseWall s2) :
    (runStep oracle wall1 freq k s1).map eraseWall
      = (runStep oracle wall2 freq k s2).map eraseWall := by
  unfold runStep
  dsimp only
  by_cases hcoin : oracle.coin k < freq
  · rw [if_pos hcoin, if_pos hcoin]
    exact update_congr (generate_congr he)
  · rw [if_neg hcoin, if_neg hcoin]
    exact update_congr he

theorem foldl_runStep_congr {oracle : Oracle} {freq : Rat} {wall1 wall2 : Nat → Rat} :
    ∀ (ks : List Nat) (s1 s2 : SimState), eraseWall s1 = eraseWall s2 →
      (ks.foldlM (fun s k => runStep oracle wall1 freq k s) s1).map eraseWall
        = (ks.foldlM (fun s k => runStep oracle wall2 freq k s) s2).map eraseWall := by
  intro ks
  induction ks with
  | nil =>
    intro s1 s2 he
    simp only [List.foldlM_nil, Option.pure_def, Option.map_some']
    rw [he]
  | cons k ks ih =>
    intro s1 s2 he
    rw [List.foldlM_cons, List.foldlM_cons]
    have hrs := @runStep_congr oracle freq k wall1 wall2 s1 s2 he
    cases hs1 : runStep oracle wall1 freq k s1 with
    | none =>
      cases hs2 : runStep oracle wall2 freq k s2 with
      | none => rfl
      | some u2 => rw [hs1, hs2] at hrs; simp at hrs
    | some u1 =>
      cases hs2 : runStep oracle wall2 freq k s2 with
      | none => rw [hs1, hs2] at hrs; simp at hrs
      | some u2 =>
        rw [hs1, hs2] at hrs
        simp only [Option.map_some', Option.some.injEq] at hrs
        simp only [Option.bind_eq_bind, Option.some_bind]
        exact ih u1 u2 hrs

theorem runSim_congr {oracle : Oracle} {freq : Rat} {steps : Nat} {wall1 wall2 : Nat → Rat}
    {s1 s2 : SimState} (he : eraseWall s1 = eraseWall s2) :
    (runSim oracle wall1 freq steps s1).map eraseWall
      = (runSim oracle wall2 freq steps s2).map eraseWall :=
  foldl_runStep_congr (List.range steps) s1 s2 he

/-- C3 (amended): determinism up to the wall clock.  Two runs with the same
topology, worker list, tick count and pseudo-random draw streams (the whole
Oracle), whose initial states agree after erasing wall-clock-derived data
(order creation times and the avg_order_completion_time statistic), produce
final states that again agree after that erasure: in particular every worker
record — movement_history included — is identical, and every stats field
except avg_order_completion_time is identical.  avg_order_completion_time
itself genuinely differs between wall clocks (see the counterexample), because
it is computed from Order.created_time, a time.time() reading. -/
theorem C3_wall_clock_determinism {oracle : Oracle} {wall1 wall2 : Nat → Rat} {freq : Rat}
    {steps : Nat} {s1 s2 t1 t2 : SimState}
    (he : eraseWall s1 = eraseWall s2)
    (h1 : runSim oracle wall1 freq steps s1 = some t1)
    (h2 : runSim oracle wall2 freq steps s2 = some t2) :
    eraseWall t1 = eraseWall t2 ∧
    t1.workers = t2.workers ∧
    t1.workers.map Worker.movement_history = t2.workers.map Worker.movement_history ∧
    t1.stats.total_orders = t2.stats.total_orders ∧
    t1.stats.completed_orders = t2.stats.completed_orders ∧
    t1.stats.total_items_picked = t2.stats.total_items_picked ∧
    t1.stats.total_distance = t2.stats.total_distance ∧
    t1.stats.worker_utilization = t2.stats.worker_utilization ∧
    t1.stats.hotspots = t2.stats.hotspots := by
  have hrun := @runSim_congr oracle freq steps wall1 wall2 s1 s2 he
  rw [h1, h2] at hrun
  simp only [Option.map_some', Option.some.injEq] at hrun
  have hwork : t1.workers = t2.workers := by
    have hx := congrArg SimState.workers hrun; exact hx
  have hst : ({ t1.stats with avg_order_completion_time := 0 } : Stats)
      = { t2.stats with avg_order_completion_time := 0 } := by
    have hx := congrArg SimState.stats hrun; exact hx
  refine ⟨hrun, hwork, by rw [hwork], ?_, ?_, ?_, ?_, ?_, ?_⟩
  · have hx := congrArg Stats.total_orders hst; exact hx
  · have hx := congrArg Stats.completed_orders hst; exact hx
  · have hx := congrArg Stats.total_items_picked hst; exact hx
  · have hx := congrArg Stats.total_distance hst; exact hx
  · have hx := congrArg Stats.worker_utilization hst; exact hx
  · have hx := congrArg Stats.hotspots hst; exact hx

/-- C3 witness: the theorem applied to two 2-step runs of the one-order oracle
on the 5x5 single-worker warehouse with constant wall clocks 5 and 100. -/
theorem C3_wall_clock_determinism_witness :
    eraseWall (initSim 5 5 1) = eraseWall (initSim 5 5 1) ∧
    ∃ t1 t2, genRun 5 2 = some t1 ∧ genRun 100 2 = some t2 ∧
      (eraseWall t1 = eraseWall t2 ∧
       t1.workers = t2.workers ∧
       t1.workers.map Worker.movement_history = t2.workers.map Worker.movement_history ∧
       t1.stats.total_orders = t2.stats.total_orders ∧
       t1.stats.completed_orders = t2.stats.completed_orders ∧
       t1.stats.total_items_picked = t2.stats.total_items_picked ∧
       t1.stats.total_distance = t2.stats.total_distance ∧
       t1.stats.worker_utilization = t2.stats.worker_utilization ∧
       t1.stats.hotspots = t2.stats.hotspots) := by
  refine ⟨rfl, ?_⟩
  cases hr1 : genRun 5 2 with
  | none => exact absurd hr1 (by decide)
  | some t1 =>
    cases hr2 : genRun 100 2 with
    | none => exact absurd hr2 (by decide)
    | some t2 => exact ⟨t1, t2, rfl, rfl, C3_wall_clock_determinism rfl hr1 hr2⟩

/-- C10: assign_order performs no idleness check.
  Even for a worker that is
already busy holding order iOld, assigning order iNew succeeds and
unconditionally replaces current_order with iNew, sets is_busy, resets the
path cursor to the start of the freshly planned path, and stamps the new
order's assigned_worker with the worker's id, while the old order's record
(its assigned_worker and remaining backlog) is left untouched; and once the
old order is orphaned (not pending, held by no worker) any number of further
simulation ticks leaves its record unchanged and keeps it orphaned, so it is
never subsequently picked from or completed. -/
theorem C10_assign_order_overwrites {w h : Nat} {wk wk' : Worker} {iOld iNew : Nat}
    {os os' : List Order}
    (hbusy : wk.is_busy = true) (hcur : wk.current_order = some iOld)
    (hne : iOld ≠ iNew)
    (hassign : assign_order w h wk iNew os = some (wk', os')) :
    wk'.current_order = some iNew ∧ wk'.is_busy = true ∧ wk'.path_index = 0 ∧
    (os'.get? iNew).map Order.assigned_worker = some (some wk.worker_id) ∧
    os'.get? iOld = os.get? iOld ∧
    ∀ (wall : Nat → Rat) (n : Nat) (s s' : SimState),
      Orphaned iOld s → iterUpdate wall n s = some s' →
      s'.orders.get? iOld = s.orders.get? iOld ∧ Orphaned iOld s' := by
  obtain ⟨o, its, hgo, -, hb, hc, -, -, -, -, hpi, hos⟩ := assign_order_spec hassign
  have hlt : iNew < os.length := (List.get?_eq_some.mp hgo).1
  refine ⟨hc, hb, hpi, ?_, ?_, ?_⟩
  · rw [hos, List.get?_eq_getElem?, List.getElem?_set_eq_of_lt _ hlt]
    rfl
  · rw [hos, List.get?_eq_getElem?, List.getElem?_set_ne (by omega),
      List.get?_eq_getElem?]
  · intro wall n s s' ho hit
    exact iterUpdate_orphan ho hit

/-- C10 witness: the concrete busy worker c8Worker (holding order index 0) is
reassigned order index 1 of c10orders on the 5x5 map. -/
theorem C10_assign_order_overwrites_witness :
    c8Worker.is_busy = true ∧ c8Worker.current_order = some 0 ∧ (0 : Nat) ≠ 1 ∧
    ∃ wk' os', assign_order 5 5 c8Worker 1 c10orders = some (wk', os') ∧
      (wk'.current_order = some 1 ∧ wk'.is_busy = true ∧ wk'.path_index = 0 ∧
       (os'.get? 1).map Order.assigned_worker = some (some c8Worker.worker_id) ∧
       os'.get? 0 = c10orders.get? 0 ∧
       ∀ (wall : Nat → Rat) (n : Nat) (s s' : SimState),
         Orphaned 0 s → iterUpdate wall n s = some s' →
         s'.orders.get? 0 = s.orders.get? 0 ∧ Orphaned 0 s') := by
  refine ⟨rfl, rfl, by decide, ?_⟩
  cases hres : assign_order 5 5 c8Worker 1 c10orders with
  | none => exact absurd hres (by decide)
  | some r =>
    obtain ⟨wk2, os2⟩ := r
    refine ⟨wk2, os2, rfl, ?_⟩
    exact C10_assign_order_overwrites rfl rfl (by decide) hres

/-- C1 counterexample: in the 5x5 scenario (one worker at the picking station
(1,3), a single pre-created order holding product 1, whose pick target (2,0) is
4 Manhattan steps away, 20 ticks, no order generation) the order is completed
at tick 11, not at tick 8 as claimed: each planned path starts with the
worker's own cell (one zero-distance tick per leg) and assignment happens after
the movement phase of tick 1, so the completion tick is 1 + 5 + 5 = 11. -/
theorem C1_counterexample :
    (scenarioRun 0 0 20).map (fun s => s.orders.map Order.completed_time) = some [some 11] ∧
    (some [some 11] : Option (List (Option Rat))) ≠ some [some 8] := by
  decide

/-- C1 amended: the same 20-tick scenario yields completed_orders = 1,
total_items_picked = 1 and total_distance = 8 as claimed, but with the order's
completion occurring at tick 11 rather than tick 8. -/
theorem C1_amended_scenario :
    (scenarioRun 0 0 20).map
        (fun s => (s.stats.completed_orders, s.stats.total_items_picked,
                   s.stats.total_distance, s.orders.map Order.completed_time))
      = some (1, 1, 8, [some 11]) := by
  decide

/-- C2 (code bug witness): running the scenario with the order's wall-clock
creation reading 10^9 (Order.__init__ stores time.time(), epoch seconds), the
order finishes with is_completed true, empty items, completed_time = 11
(simulation ticks) and created_time = 10^9, so completed_time >= created_time
fails even though the order is completed. -/
theorem C2_order_invariant_code_bug :
    (scenarioRun 1000000000 0 20).map
        (fun s => s.orders.map fun o =>
          (o.is_completed, o.items.isEmpty, o.completed_time, o.created_time,
           decide (∀ ct ∈ o.completed_time, o.created_time ≤ ct)))
      = some [(true, true, some 11, 1000000000, false)] := by
  decide

/-- C4 (code bug witness): after 3 ticks of the scenario the worker's movement
history holds exactly one entry at the cell (1,3), but the hotspot map records
2 for that cell: _update_stats re-adds the whole movement history of every
worker to the persisting hotspots dict on every tick instead of recomputing
it. -/
theorem C4_hotspots_code_bug :
    (scenarioRun 0 0 3).map
        (fun s => (alookup s.stats.hotspots (1, 3), historyVisitCount s (1, 3)))
      = some (2, 1) ∧ (2 : Nat) ≠ 1 := by
  decide

/-- C3 counterexample: two 20-step runs of run_simulation with the identical
5x5 topology, one worker, the same oracle streams (the pseudo-random seed
sequence) and the same frequency, but wall-clock streams constantly 5 and
constantly 100, produce identical per-worker movement histories yet different
stats: avg_order_completion_time is 6 in one run and 0 in the other, because
Order.created_time is a wall-clock reading while completion times are
simulation ticks. -/
theorem C3_counterexample :
    (genRun 5 20).map (fun s => (s.workers.map Worker.movement_history,
        s.stats.avg_order_completion_time))
      = some (scenarioHistory, 6) ∧
    (genRun 100 20).map (fun s => (s.workers.map Worker.movement_history,
        s.stats.avg_order_completion_time))
      = some (scenarioHistory, 0) ∧
    (6 : Rat) ≠ 0 :=
  ⟨by decide, by decide, by decide⟩

/-- C9 counterexample: from badItemInit (a single order of one item with no
storage location, the very situation of the spec's own unknown-item scenario),
after 2 ticks the order is assigned and its unknown item has been dropped
without a pick, so the sum of picked items (0) differs from the assigned
orders' original item count (1) minus their current backlog total (0). -/
theorem C9_counterexample :
    (iterUpdate (fun _ => 0) 2 badItemInit).map
        (fun s => (totalPicked s.workers, assignedBacklogSum s.orders,
                   s.orders.map fun o => o.assigned_worker))
      = some (0, 0, [some 1]) ∧
    (badItemInit.orders.map fun o => o.items.length) = [1] ∧
    (0 : Nat) ≠ 1 - 0 := by
  decide

end Warehouse
